import Mathlib

/-!
Verification of the state-to-inventory transformation implemented in
`terraform.py` (a Terraform-state → Ansible-inventory converter).

The development shallowly embeds the Python source:

* Python `dict`s are embedded as association lists `List (String × V)` in
  insertion order; `dictSet` models `d[k] = v` (in-place value replacement
  when the key is present, append otherwise) and `dictUpdate` models
  `d.update(w)`.  `dlookup` models `d[k]` / `d.get(k)`.
* Python `set`s are embedded as `Finset String` (the code only ever forms
  sets of strings, and only uses membership, union and sorting).
* The classes `TerraformResource`, `AnsibleInventory`, `AnsibleHost` and
  `AnsibleGroup` become structures with functional update operations named
  after the source methods.
-/

/-- Python dictionary lookup `d.get(k)` over an association list held in
insertion order: the first binding of the key, if any. -/
def dlookup {V : Type} : List (String × V) → String → Option V
  | [], _ => none
  | (k, v) :: rest, key => if k = key then some v else dlookup rest key

/-- Replace the value of every binding of key `k` by `v`, in place (used by
`dictSet` once the key is known to be present; with the unique keys of a
Python dict this replaces exactly one binding). -/
def replaceAll {V : Type} : List (String × V) → String → V → List (String × V)
  | [], _, _ => []
  | p :: rest, k, v => (if p.1 = k then (k, v) else p) :: replaceAll rest k v

/-- Python dictionary assignment `d[k] = v`: if the key is present its binding
is replaced in place, otherwise the binding is appended, matching dict
insertion order. -/
def dictSet {V : Type} : List (String × V) → String → V → List (String × V)
  | [], k, v => [(k, v)]
  | p :: rest, k, v => if p.1 = k then (k, v) :: replaceAll rest k v else p :: dictSet rest k v

/-- Python `d.update(w)`: fold `dictSet` over the entries of `w` in order. -/
def dictUpdate {V : Type} (d w : List (String × V)) : List (String × V) :=
  w.foldl (fun a p => dictSet a p.1 p.2) d

/-- Left-biased choice on `Option`, used to state lookup lemmas. -/
def oE {V : Type} : Option V → Option V → Option V
  | some x, _ => some x
  | none, b => b

@[simp] theorem oE_none {V : Type} (b : Option V) : oE none b = b := rfl

@[simp] theorem oE_some {V : Type} (x : V) (b : Option V) : oE (some x) b = some x := rfl

theorem oE_assoc {V : Type} (a b c : Option V) : oE (oE a b) c = oE a (oE b c) := by
  cases a <;> cases b <;> rfl

@[simp] theorem dlookup_nil {V : Type} (k : String) : dlookup ([] : List (String × V)) k = none := rfl

@[simp] theorem dlookup_cons {V : Type} (k key : String) (v : V) (rest : List (String × V)) :
    dlookup ((k, v) :: rest) key = if k = key then some v else dlookup rest key := rfl

theorem dlookup_append {V : Type} (a b : List (String × V)) (k : String) :
    dlookup (a ++ b) k = oE (dlookup a k) (dlookup b k) := by
  induction a with
  | nil => simp
  | cons p rest ih =>
    obtain ⟨k', v⟩ := p
    by_cases h : k' = k <;> simp [h, ih]

theorem dlookup_eq_none_of_not_mem_keys {V : Type} (d : List (String × V)) (k : String)
    (h : k ∉ d.map Prod.fst) : dlookup d k = none := by
  induction d with
  | nil => rfl
  | cons p rest ih =>
    obtain ⟨k', v⟩ := p
    simp only [List.map_cons, List.mem_cons] at h
    push_neg at h
    simp [Ne.symm h.1, ih h.2]

theorem dlookup_mem {V : Type} {d : List (String × V)} {k : String} {v : V}
    (h : dlookup d k = some v) : (k, v) ∈ d := by
  induction d with
  | nil => simp at h
  | cons p rest ih =>
    obtain ⟨k', v'⟩ := p
    by_cases hk : k' = k
    · subst hk
      simp at h
      simp [h]
    · simp [hk] at h
      exact List.mem_cons_of_mem _ (ih h)

theorem dlookup_replaceAll {V : Type} (d : List (String × V)) (k : String) (v : V) (key : String) :
    dlookup (replaceAll d k v) key =
      if key = k then (dlookup d k).map (fun _ => v) else dlookup d key := by
  induction d with
  | nil => by_cases h : key = k <;> simp [replaceAll, h]
  | cons p rest ih =>
    obtain ⟨k', v'⟩ := p
    by_cases hk : k' = k
    · subst hk
      by_cases hkey : key = k'
      · subst hkey
        simp [replaceAll, ih]
      · simp [replaceAll, hkey, Ne.symm hkey, ih]
    · by_cases hkey : key = k
      · subst hkey
        simp [replaceAll, hk, Ne.symm (fun h => hk h.symm), ih]
      · by_cases hk' : k' = key
        · subst hk'
          simp [replaceAll, hk, ih]
        · simp [replaceAll, hk, hk', ih, hkey]

/-- Lookup after a `dictSet`: the written key reads back the written value,
any other key is unaffected. -/
theorem dlookup_dictSet {V : Type} (d : List (String × V)) (k : String) (v : V) (key : String) :
    dlookup (dictSet d k v) key = if key = k then some v else dlookup d key := by
  induction d with
  | nil => by_cases h : key = k <;> simp [dictSet, h, Ne.symm]
  | cons p rest ih =>
    obtain ⟨k', v'⟩ := p
    by_cases hk : k' = k
    · subst hk
      by_cases hkey : key = k'
      · subst hkey
        simp [dictSet]
      · simp [dictSet, Ne.symm hkey, hkey, dlookup_replaceAll]
    · by_cases hkey : key = k
      · subst hkey
        simp [dictSet, hk, Ne.symm (fun h => hk h.symm), ih]
      · by_cases hk' : k' = key
        · subst hk'
          simp [dictSet, hk, ih]
        · simp [dictSet, hk, hk', ih, hkey]

/-- The entries written by `replaceAll` keep their original keys. -/
theorem keys_replaceAll {V : Type} (d : List (String × V)) (k : String) (v : V) :
    (replaceAll d k v).map Prod.fst = d.map Prod.fst := by
  induction d with
  | nil => rfl
  | cons p rest ih =>
    obtain ⟨k', v'⟩ := p
    by_cases hk : k' = k <;> simp [replaceAll, hk, ih]

/-- Keys after a `dictSet`: unchanged when the key was present, the key
appended otherwise (dict insertion order). -/
theorem keys_dictSet {V : Type} (d : List (String × V)) (k : String) (v : V) :
    (dictSet d k v).map Prod.fst =
      if k ∈ d.map Prod.fst then d.map Prod.fst else d.map Prod.fst ++ [k] := by
  induction d with
  | nil => simp [dictSet]
  | cons p rest ih =>
    obtain ⟨k', v'⟩ := p
    by_cases hk : k' = k
    · subst hk
      simp [dictSet, keys_replaceAll]
    · simp only [dictSet, if_neg hk, List.map_cons, ih, List.mem_cons]
      by_cases hmem : k ∈ rest.map Prod.fst
      · simp [hmem, hk, Ne.symm (fun h => hk h.symm)]
      · simp only [hmem, if_false, or_false]
        rw [if_neg (fun h => hk h.symm)]
        rfl

/-- Lookup through a left fold of `dictSet` over a list of entries: either the
last matching entry of the written list, or the original dictionary. -/
theorem dlookup_foldl_dictSet {V : Type} (entries : List (String × V))
    (acc : List (String × V)) (k : String) :
    dlookup (entries.foldl (fun a p => dictSet a p.1 p.2) acc) k =
      oE (dlookup entries.reverse k) (dlookup acc k) := by
  induction entries generalizing acc with
  | nil => simp
  | cons p t ih =>
    obtain ⟨k0, v0⟩ := p
    rw [List.foldl_cons, ih, List.reverse_cons, dlookup_append, oE_assoc]
    congr 1
    rw [dlookup_dictSet]
    by_cases h : k = k0
    · subst h
      simp
    · simp [h, Ne.symm h]

/-- Lookup after `dictUpdate`, i.e. after the Python `d.update(w)`: the last
binding of the key in `w` if present, else the original binding. -/
theorem dlookup_dictUpdate {V : Type} (d w : List (String × V)) (k : String) :
    dlookup (dictUpdate d w) k = oE (dlookup w.reverse k) (dlookup d k) :=
  dlookup_foldl_dictSet w d k

/-- Updating twice with the same entries is the same mapping as updating
once (key-wise): the second pass rewrites each key with the same final
value. -/
theorem dlookup_dictUpdate_idem {V : Type} (d w : List (String × V)) (k : String) :
    dlookup (dictUpdate (dictUpdate d w) w) k = dlookup (dictUpdate d w) k := by
  rw [dlookup_dictUpdate, dlookup_dictUpdate]
  cases dlookup w.reverse k <;> rfl

/-- Lookup in a value-mapped association list. -/
theorem dlookup_map_value {V W : Type} (d : List (String × V)) (F : V → W) (k : String) :
    dlookup (d.map (fun p => (p.1, F p.2))) k = (dlookup d k).map F := by
  induction d with
  | nil => rfl
  | cons p rest ih =>
    obtain ⟨k', v⟩ := p
    by_cases h : k' = k <;> simp [h, ih]

/-- If all bindings of a key carry the same value and the key is bound, lookup
finds that value. -/
theorem dlookup_of_uniq {V : Type} {d : List (String × V)} {k : String} {v : V}
    (hmem : (k, v) ∈ d) (huniq : ∀ v', (k, v') ∈ d → v' = v) :
    dlookup d k = some v := by
  induction d with
  | nil => simp at hmem
  | cons p rest ih =>
    obtain ⟨k', v'⟩ := p
    by_cases hk : k' = k
    · subst hk
      have : v' = v := huniq v' (List.mem_cons_self _ _)
      simp [this]
    · rcases List.mem_cons.mp hmem with h1 | h2
      · cases h1; simp at hk
      · simp only [dlookup_cons, if_neg hk]
        exact ih h2 (fun w hw => huniq w (List.mem_cons_of_mem _ hw))

/-- With unique keys, lookup in the reversed list agrees with lookup. -/
theorem dlookup_reverse_of_nodup {V : Type} (d : List (String × V))
    (h : (d.map Prod.fst).Nodup) (k : String) : dlookup d.reverse k = dlookup d k := by
  induction d with
  | nil => rfl
  | cons p rest ih =>
    obtain ⟨k', v⟩ := p
    simp only [List.map_cons, List.nodup_cons] at h
    rw [List.reverse_cons, dlookup_append]
    by_cases hk : k' = k
    · subst hk
      have : dlookup rest.reverse k' = none := by
        apply dlookup_eq_none_of_not_mem_keys
        intro hc
        apply h.1
        rcases List.mem_map.mp hc with ⟨q, hq, hq2⟩
        exact hq2 ▸ List.mem_map_of_mem Prod.fst (List.mem_reverse.mp hq)
      simp [this]
    · rw [ih h.2]
      cases hv : dlookup rest k <;> simp [hk, hv]

/-- `dictSet` preserves uniqueness of keys. -/
theorem nodup_keys_dictSet {V : Type} (d : List (String × V)) (k : String) (v : V)
    (h : (d.map Prod.fst).Nodup) : ((dictSet d k v).map Prod.fst).Nodup := by
  rw [keys_dictSet]
  by_cases hmem : k ∈ d.map Prod.fst
  · simpa [hmem] using h
  · simp only [hmem, if_false]
    rw [List.nodup_append]
    refine ⟨h, List.nodup_singleton k, ?_⟩
    intro a ha hb
    simp at hb
    subst hb
    exact hmem ha

/-! ### Python `int()` on strings

`read_list_attr` applies the Python `int` to the value of the `"<key>.#"`
length marker.  The model covers `int` on ASCII strings: optional
surrounding whitespace, an optional sign, then a nonempty digit run in which
single underscores may appear between digits (Python 3.6+).  A string `int`
rejects is modelled as `none` (Python raises `ValueError`). -/

/-- ASCII decimal digit test. -/
def isAsciiDigit (c : Char) : Bool := 48 ≤ c.toNat && c.toNat ≤ 57

/-- Numeric value of an ASCII digit. -/
def digitVal (c : Char) : Nat := c.toNat - 48

/-- Whitespace stripped by the Python `int` around the number. -/
def pyWS (c : Char) : Bool :=
  c = ' ' || c = '\t' || c = '\n' || c = '\x0d' || c = '\x0b' || c = '\x0c'

/-- Digit-run scanner for Python `int`: `acc` is the value read so far and
`afterU` records that the previous character was an underscore (which must be
followed by a digit and may not repeat). -/
def pyIntCore : Nat → Bool → List Char → Option Nat
  | acc, afterU, [] => if afterU then none else some acc
  | acc, afterU, c :: cs =>
    if isAsciiDigit c then pyIntCore (10 * acc + digitVal c) false cs
    else if c = '_' && !afterU then pyIntCore acc true cs
    else none

/-- Digit run with a mandatory leading digit (what follows the optional
sign in the Python `int`). -/
def pyIntDigits : List Char → Option Nat
  | [] => none
  | c :: cs => if isAsciiDigit c then pyIntCore (digitVal c) false cs else none

/-- The characters of `s` with surrounding Python-`int` whitespace removed. -/
def pyStrip (s : String) : List Char :=
  ((s.data.dropWhile pyWS).reverse.dropWhile pyWS).reverse

/-- Sign handling of the Python `int`: an optional single `+`/`-` before the
digit run. -/
def pyIntSigned : List Char → Option Int
  | [] => none
  | c :: rest =>
    if c = '-' then (pyIntDigits rest).map (fun n => -(n : Int))
    else if c = '+' then (pyIntDigits rest).map (fun n => (n : Int))
    else (pyIntDigits (c :: rest)).map (fun n => (n : Int))

/-- Python `int(s)` for a string argument: `some n` when `int` succeeds with
value `n`, `none` when it raises `ValueError`. -/
def pyInt? (s : String) : Option Int := pyIntSigned (pyStrip s)

/-- Plain nonempty ASCII digit-run value: `decValue? s = some n` states that
`s` is a decimal representation of the natural number `n` (leading zeros
allowed).  This is the formal reading of "the decimal string of n". -/
def decCore : Nat → List Char → Option Nat
  | acc, [] => some acc
  | acc, c :: cs => if isAsciiDigit c then decCore (10 * acc + digitVal c) cs else none

/-- See `decCore`: the decimal value of a nonempty all-digit string. -/
def decValue? (s : String) : Option Nat :=
  match s.data with
  | [] => none
  | c :: cs => if isAsciiDigit c then decCore (digitVal c) cs else none

theorem decCore_eq_pyIntCore (cs : List Char) (acc : Nat)
    (h : ∀ c ∈ cs, isAsciiDigit c = true) : pyIntCore acc false cs = decCore acc cs := by
  induction cs generalizing acc with
  | nil => rfl
  | cons c t ih =>
    have hc : isAsciiDigit c = true := h c (List.mem_cons_self _ _)
    simp only [pyIntCore, decCore, hc, if_true]
    exact ih _ (fun d hd => h d (List.mem_cons_of_mem _ hd))

theorem decCore_digits (cs : List Char) (acc : Nat) (n : Nat) (h : decCore acc cs = some n) :
    ∀ c ∈ cs, isAsciiDigit c = true := by
  induction cs generalizing acc with
  | nil => simp
  | cons c t ih =>
    by_cases hc : isAsciiDigit c
    · intro d hd
      rcases List.mem_cons.mp hd with h1 | h2
      · subst h1; exact hc
      · simp only [decCore, hc, if_true] at h
        exact ih _ h d h2
    · simp [decCore, hc] at h

/-- A plain digit string is accepted by the Python `int` with the same value. -/
theorem pyInt?_of_decValue? (s : String) (n : Nat) (h : decValue? s = some n) :
    pyInt? s = some (n : Int) := by
  unfold decValue? at h
  match hs : s.data with
  | [] => rw [hs] at h; simp at h
  | c :: cs =>
    rw [hs] at h
    by_cases hc : isAsciiDigit c
    · simp only [hc, if_true] at h
      have hdigits : ∀ d ∈ cs, isAsciiDigit d = true := decCore_digits cs _ n h
      have hnotws : ∀ d ∈ c :: cs, pyWS d = false := by
        intro d hd
        have hdig : isAsciiDigit d = true := by
          rcases List.mem_cons.mp hd with h1 | h2
          · subst h1; exact hc
          · exact hdigits d h2
        unfold pyWS
        have h48 : 48 ≤ d.toNat := by
          simp only [isAsciiDigit, Bool.and_eq_true, decide_eq_true_eq] at hdig
          exact hdig.1
        have : ∀ e : Char, e.toNat < 48 → d ≠ e := by
          intro e he hde
          subst hde
          exact absurd h48 (Nat.not_le_of_lt he)
        simp [this ' ' (by decide), this '\t' (by decide), this '\n' (by decide),
          this '\x0d' (by decide), this '\x0b' (by decide), this '\x0c' (by decide)]
      have hstrip : pyStrip s = c :: cs := by
        unfold pyStrip
        rw [hs]
        have h1 : (c :: cs).dropWhile pyWS = c :: cs := by
          rw [List.dropWhile_cons_of_neg]
          simp [hnotws c (List.mem_cons_self _ _)]
        rw [h1]
        rcases h2 : (c :: cs).reverse with _ | ⟨d, ds⟩
        · simp at h2
        · have hd : d ∈ c :: cs := by
            rw [← List.mem_reverse, h2]
            exact List.mem_cons_self _ _
          rw [List.dropWhile_cons_of_neg]
          · rw [← h2, List.reverse_reverse]
          · simp [hnotws d hd]
      have hcd : ¬ (c = '-') := by
        intro hcontr
        subst hcontr
        simp [isAsciiDigit] at hc
      have hcp : ¬ (c = '+') := by
        intro hcontr
        subst hcontr
        simp [isAsciiDigit] at hc
      have hpd : pyIntDigits (c :: cs) = some n := by
        simp only [pyIntDigits, hc, if_true]
        rw [decCore_eq_pyIntCore cs _ hdigits]
        exact h
      unfold pyInt?
      rw [hstrip]
      simp [pyIntSigned, hcd, hcp, hpd]
    · simp [hc] at h

/-! ### Resource records

`TerraformResource` wraps the attributes of one resource.  `flat_attrs` is the
legacy-shape flag, `rtype` the explicit type override passed by the current
shape iteration (the constructor argument the source stores as `_type`),
`type_field` the optional `"type"` entry of the wrapped record (read in the
legacy shape), and `attributes` the attribute map `_raw_attributes()` returns
(`primary.attributes` in the legacy shape, `attributes` in the current one).

Attribute values are modelled by `AttrVal`: an opaque scalar string, a list of
strings, a string map, or `null` (Python `None`, also the result of a missing
`.get`).  These are exactly the shapes the transformer ever consumes; deeper
JSON nesting is never inspected by the source and is outside the model. -/

/-- Strip an expected prefix from a character list, returning the remainder
when the prefix is present. -/
def dropPrefix? : List Char → List Char → Option (List Char)
  | [], cs => some cs
  | _ :: _, [] => none
  | p :: ps, c :: cs => if c = p then dropPrefix? ps cs else none

inductive AttrVal
  | null
  | s (v : String)
  | l (vs : List String)
  | m (kvs : List (String × String))
deriving DecidableEq

/-- Failures of the shape-dispatched readers.  `invalidLength` is the spec's
`InvalidLength` (Python `int` raising on the length marker), `keyError` a
missing `"<key>.<i>"` entry during legacy list reconstruction, and `illTyped`
the model boundary for attribute values whose dynamic shape the handlers
cannot consume (the untyped source would raise further downstream). -/
inductive ReadErr
  | invalidLength
  | keyError
  | illTyped
deriving DecidableEq

structure TerraformResource where
  flat_attrs : Bool
  rtype : Option String
  type_field : Option String
  attributes : List (String × AttrVal)
deriving DecidableEq

deriving instance DecidableEq for Except

/-- `TerraformResource.type()`: the explicit override if truthy (Python treats
the empty string as falsy), else the own `"type"` entry; `none`
models the `KeyError` (`MissingType`) when neither is present. -/
def TerraformResource.type? (r : TerraformResource) : Option String :=
  match r.rtype with
  | some t => if t = "" then r.type_field else some t
  | none => r.type_field

/-- Structural model of `str.startswith`: does `s` begin with `pre`? -/
def strStartsWith (s pre : String) : Bool :=
  (dropPrefix? pre.data s.data).isSome

/-- `TerraformResource.is_ansible()`: does the type carry the inventory
provider prefix?  `none` when `type()` would raise. -/
def TerraformResource.is_ansible (r : TerraformResource) : Option Bool :=
  r.type?.map (fun t => strStartsWith t "ansible_")

/-- `TerraformResource.read_attr(key)`: `attrs.get(key, None)`. -/
def TerraformResource.read_attr (r : TerraformResource) (key : String) : AttrVal :=
  (dlookup r.attributes key).getD AttrVal.null

/-- Models `re.match(r"^" + key + r"\.(.*)", k)` for the regex-literal keys
the source passes (the call sites use the literal `"vars"`): the match
succeeds iff `k` starts with `key ++ "."`, and the captured group is the
remainder of `k` truncated at the first newline, because `.` in a Python
regular expression does not match a newline. -/
def regexSubkey (key k : String) : Option String :=
  match dropPrefix? (key.data ++ ['.']) k.data with
  | none => none
  | some rest => some (rest.takeWhile (fun c => c ≠ '\n')).asString

/-- One step of the legacy-map scan of `read_dict_attr`: skip keys that do not
match, skip the `"%"` length marker, store every other match. -/
def dictScanStep (key : String) (out : List (String × AttrVal)) (p : String × AttrVal) :
    List (String × AttrVal) :=
  match regexSubkey key p.1 with
  | none => out
  | some sub => if sub = "%" then out else dictSet out sub p.2

/-- `TerraformResource.read_dict_attr(key)`.  Legacy shape: scan all attribute
keys against `"^<key>\.(.*)"` and collect the matches (excluding the `"%"`
marker).  Current shape: `attrs.get(key, {})`; a present value that is not a
map is outside the provider schema and is read as the empty map (the untyped
source would return it and fail later in `dict.update`). -/
def TerraformResource.read_dict_attr (r : TerraformResource) (key : String) :
    List (String × AttrVal) :=
  if r.flat_attrs then
    r.attributes.foldl (dictScanStep key) []
  else
    match dlookup r.attributes key with
    | some (AttrVal.m kvs) => kvs.map (fun q => (q.1, AttrVal.s q.2))
    | _ => []

/-- `int(v)` applied to a raw attribute value: strings parse via `pyInt?`;
any other value makes the Python `int` raise and is modelled as `none`. -/
def markerInt? : AttrVal → Option Int
  | AttrVal.s t => pyInt? t
  | _ => none

/-- The legacy reconstruction loop of `read_list_attr`: read
`attrs["<key>.<i>"]` for each listed index, failing on the first missing
key exactly as the Python subscript would. -/
def readIndexed (attrs : List (String × AttrVal)) (key : String) :
    List Nat → Except ReadErr (List AttrVal)
  | [] => Except.ok []
  | i :: is =>
    match dlookup attrs (key ++ "." ++ toString i) with
    | none => Except.error ReadErr.keyError
    | some v =>
      match readIndexed attrs key is with
      | Except.ok vs => Except.ok (v :: vs)
      | Except.error e => Except.error e

/-- `TerraformResource.read_list_attr(key)`.  Legacy shape: no `"<key>.#"`
marker yields `[]`; a marker that `int` rejects is the `InvalidLength`
failure; a length below one yields `[]`; otherwise the entries
`"<key>.0" … "<key>.(n-1)"` are read in index order.  Current shape:
`attrs.get(key, None)` (a present non-list value is outside the provider
schema, `illTyped`). -/
def TerraformResource.read_list_attr (r : TerraformResource) (key : String) :
    Except ReadErr (Option (List AttrVal)) :=
  if r.flat_attrs then
    match dlookup r.attributes (key ++ ".#") with
    | none => Except.ok (some [])
    | some v =>
      match markerInt? v with
      | none => Except.error ReadErr.invalidLength
      | some n =>
        if n < 1 then Except.ok (some [])
        else
          match readIndexed r.attributes key (List.range n.toNat) with
          | Except.ok vs => Except.ok (some vs)
          | Except.error e => Except.error e
  else
    match dlookup r.attributes key with
    | none => Except.ok none
    | some (AttrVal.l vs) => Except.ok (some (vs.map AttrVal.s))
    | some _ => Except.error ReadErr.illTyped

example :
    TerraformResource.read_list_attr
      ⟨true, none, none,
        [("groups.#", AttrVal.s "2"), ("groups.0", AttrVal.s "a"), ("groups.1", AttrVal.s "b")]⟩
      "groups" = Except.ok (some [AttrVal.s "a", AttrVal.s "b"]) := by decide

example :
    TerraformResource.read_list_attr ⟨true, none, none, [("groups.#", AttrVal.s "-1")]⟩
      "groups" = Except.ok (some []) := by decide

example :
    TerraformResource.read_list_attr ⟨true, none, none, [("groups.#", AttrVal.s "zzz")]⟩
      "groups" = Except.error ReadErr.invalidLength := by decide

example :
    TerraformResource.read_dict_attr
      ⟨true, none, none,
        [("vars.%", AttrVal.s "2"), ("vars.a", AttrVal.s "1"), ("vars.b", AttrVal.s "2")]⟩
      "vars" = [("a", AttrVal.s "1"), ("b", AttrVal.s "2")] := by decide

example :
    TerraformResource.read_dict_attr ⟨true, none, none, [("vars.a\nb", AttrVal.s "v")]⟩
      "vars" = [("a", AttrVal.s "v")] := by decide

/-! ### The inventory model

`AnsibleHost`, `AnsibleGroup` and `AnsibleInventory` mirror the source
classes.  Python set fields become `Finset String`; dict fields become
association lists.  The source guards each merge with a truthiness test
(`if groups: …`, `if host_vars: …`); merging an empty collection is the
identity on sets and dicts, so the model applies the merges
unconditionally, and a `None` argument is represented by the empty
collection (both are falsy, hence both are no-ops in the source).  The
unused source field `inner_json` is omitted. -/

/-- Lexicographic at-most comparison of character lists, as a structurally
recursive boolean (so that the kernel can evaluate it; the library's
`String` order instances are tactic-defined and opaque to evaluation). -/
def listLeB : List Char → List Char → Bool
  | [], _ => true
  | _ :: _, [] => false
  | a :: as, b :: bs => if a < b then true else if b < a then false else listLeB as bs

/-- Lexicographic at-most comparison of strings: the Python `<=` on `str`. -/
def strLeB (a b : String) : Bool := listLeB a.data b.data

theorem listLeB_iff (as bs : List Char) :
    listLeB as bs = true ↔ ¬ List.Lex (· < ·) bs as := by
  induction as generalizing bs with
  | nil =>
    cases bs <;> simp [listLeB, List.Lex.not_nil_right]
  | cons a as ih =>
    cases bs with
    | nil =>
      simp [listLeB]
      exact List.Lex.nil
    | cons b bs =>
      rcases lt_trichotomy a b with hab | hab | hab
      · simp only [listLeB, if_pos hab, true_iff]
        intro hlex
        cases hlex with
        | cons h => exact absurd hab (lt_irrefl _)
        | rel h => exact absurd hab (asymm h)
      · subst hab
        simp only [listLeB, if_neg (lt_irrefl a), List.Lex.cons_iff]
        exact ih bs
      · rw [listLeB, if_neg (asymm hab : ¬ a < b), if_pos hab]
        simp only [Bool.false_eq_true, false_iff, not_not]
        exact List.Lex.rel hab

theorem strLeB_iff (a b : String) : strLeB a b = true ↔ a ≤ b := by
  rw [String.le_iff_toList_le, ← not_lt]
  exact listLeB_iff a.data b.data

theorem strLeB_total (a b : String) (h : strLeB a b = false) : strLeB b a = true := by
  rw [strLeB_iff]
  rcases le_total a b with hab | hba
  · rw [← strLeB_iff] at hab
    simp [h] at hab
  · exact hba

/-- Insert a string into a (sorted) list in front of the first element it is
at most equal to. -/
def insertSorted (x : String) : List String → List String
  | [] => [x]
  | y :: ys => if strLeB x y then x :: y :: ys else y :: insertSorted x ys

/-- Structural insertion sort on string lists; models the Python `sorted()`. -/
def insSort : List String → List String
  | [] => []
  | x :: xs => insertSorted x (insSort xs)

theorem insertSorted_perm (x : String) (l : List String) :
    List.Perm (insertSorted x l) (x :: l) := by
  induction l with
  | nil => exact List.Perm.refl _
  | cons y ys ih =>
    by_cases h : strLeB x y
    · simp [insertSorted, h]
    · simp only [insertSorted, h, if_false]
      exact (ih.cons y).trans (List.Perm.swap x y ys)

theorem insSort_perm (l : List String) : List.Perm (insSort l) l := by
  induction l with
  | nil => exact List.Perm.refl _
  | cons x xs ih => exact (insertSorted_perm x (insSort xs)).trans (ih.cons x)

theorem sorted_insertSorted (x : String) (l : List String)
    (h : List.Sorted (· ≤ ·) l) : List.Sorted (· ≤ ·) (insertSorted x l) := by
  induction l with
  | nil => simp [insertSorted]
  | cons y ys ih =>
    rw [List.sorted_cons] at h
    by_cases hxy : strLeB x y
    · rw [insertSorted, if_pos hxy, List.sorted_cons]
      refine ⟨?_, List.sorted_cons.mpr h⟩
      intro b hb
      rcases List.mem_cons.mp hb with rfl | hb
      · exact (strLeB_iff x b).mp hxy
      · exact le_trans ((strLeB_iff x y).mp hxy) (h.1 b hb)
    · rw [insertSorted, if_neg hxy, List.sorted_cons]
      refine ⟨?_, ih h.2⟩
      intro b hb
      rcases List.mem_cons.mp ((insertSorted_perm x ys).mem_iff.mp hb) with rfl | hb'
      · exact (strLeB_iff y b).mp (strLeB_total b y (Bool.eq_false_iff.mpr hxy))
      · exact h.1 b hb'

theorem sorted_insSort (l : List String) : List.Sorted (· ≤ ·) (insSort l) := by
  induction l with
  | nil => simp [insSort]
  | cons x xs ih => exact sorted_insertSorted x (insSort xs) ih

theorem insSort_eq_of_perm (l₁ l₂ : List String) (h : List.Perm l₁ l₂) :
    insSort l₁ = insSort l₂ :=
  List.eq_of_perm_of_sorted ((insSort_perm l₁).trans (h.trans (insSort_perm l₂).symm))
    (sorted_insSort l₁) (sorted_insSort l₂)

/-- Ascending enumeration of a multiset of strings (sorting is invariant
under permutation of the representative). -/
def mulSort (m : Multiset String) : List String :=
  Quot.liftOn m insSort (fun _ _ h => insSort_eq_of_perm _ _ h)

theorem mem_mulSort (m : Multiset String) (x : String) : x ∈ mulSort m ↔ x ∈ m := by
  induction m using Quotient.inductionOn with
  | h l => exact (insSort_perm l).mem_iff

theorem sorted_mulSort (m : Multiset String) : List.Sorted (· ≤ ·) (mulSort m) := by
  induction m using Quotient.inductionOn with
  | h l => exact sorted_insSort l

/-- Ascending enumeration of a `Finset String`; models the Python `sorted()`
on a set of strings, and is also used as the canonical model order for
iterating over a set (a Python set iterates in unspecified order). -/
def finSort (s : Finset String) : List String := mulSort s.val

theorem mem_finSort (s : Finset String) (x : String) : x ∈ finSort s ↔ x ∈ s :=
  mem_mulSort s.val x

theorem sorted_finSort (s : Finset String) : List.Sorted (· ≤ ·) (finSort s) :=
  sorted_mulSort s.val

structure AnsibleHost where
  hostname : String
  groups : Finset String
  host_vars : List (String × AttrVal)
deriving DecidableEq

/-- `AnsibleHost.update`: merge additional groups into the membership set and
additional variables into the variable dict (key-wise last write wins). -/
def AnsibleHost.update (h : AnsibleHost) (groups : List String)
    (host_vars : List (String × AttrVal)) : AnsibleHost :=
  { h with
    host_vars := dictUpdate h.host_vars host_vars
    groups := h.groups ∪ groups.toFinset }

/-- `AnsibleHost.__init__`: membership pre-seeded with the universal group
`"all"`, then the same merge as `update`. -/
def AnsibleHost.init (hostname : String) (groups : List String)
    (host_vars : List (String × AttrVal)) : AnsibleHost :=
  AnsibleHost.update ⟨hostname, {"all"}, []⟩ groups host_vars

/-- `AnsibleHost.tidy`: the sorted list the source assigns to `self.groups`
before serialization. -/
def AnsibleHost.tidy (h : AnsibleHost) : List String :=
  finSort h.groups

/-- `AnsibleHost.get_vars`: the variable dict of the host (the source copies it). -/
def AnsibleHost.get_vars (h : AnsibleHost) : List (String × AttrVal) :=
  h.host_vars

structure AnsibleGroup where
  groupname : String
  hosts : Finset String
  children : Finset String
  group_vars : List (String × AttrVal)
deriving DecidableEq

/-- `AnsibleGroup.update`: merge additional member hosts, child groups and
group variables. -/
def AnsibleGroup.update (g : AnsibleGroup) (children hosts : List String)
    (group_vars : List (String × AttrVal)) : AnsibleGroup :=
  { g with
    hosts := g.hosts ∪ hosts.toFinset
    children := g.children ∪ children.toFinset
    group_vars := dictUpdate g.group_vars group_vars }

/-- `AnsibleGroup.__init__`: empty sets and dict, then the same merge as
`update`. -/
def AnsibleGroup.init (groupname : String) (children hosts : List String)
    (group_vars : List (String × AttrVal)) : AnsibleGroup :=
  AnsibleGroup.update ⟨groupname, ∅, ∅, []⟩ children hosts group_vars

/-- `AnsibleGroup.tidy`, hosts half: the sorted member list the source
assigns to `self.hosts` before serialization. -/
def AnsibleGroup.tidyHosts (g : AnsibleGroup) : List String :=
  finSort g.hosts

/-- `AnsibleGroup.tidy`, children half: the sorted child list the source
assigns to `self.children` before serialization. -/
def AnsibleGroup.tidyChildren (g : AnsibleGroup) : List String :=
  finSort g.children

structure AnsibleInventory where
  groups : List (String × AnsibleGroup)
  hosts : List (String × AnsibleHost)
deriving DecidableEq

/-- The freshly constructed inventory. -/
def AnsibleInventory.empty : AnsibleInventory := ⟨[], []⟩

/-- `AnsibleInventory.update_groups`: upsert action for group resources. -/
def AnsibleInventory.update_groups (inv : AnsibleInventory) (groupname : String)
    (children hosts : List String) (group_vars : List (String × AttrVal)) :
    AnsibleInventory :=
  match dlookup inv.groups groupname with
  | some g =>
    { inv with groups := dictSet inv.groups groupname (g.update children hosts group_vars) }
  | none =>
    { inv with
      groups := dictSet inv.groups groupname (AnsibleGroup.init groupname children hosts group_vars) }

/-- `AnsibleInventory.update_hosts`: upsert action for host resources.  After
the upsert the source iterates over the full membership set of the host (which is
never empty — it always holds `"all"`) and registers the hostname as a member
of each of those groups.  A Python set iterates in unspecified order; the
model iterates in sorted order, and no stated property depends on the order,
since the per-group registrations touch distinct keys. -/
def AnsibleInventory.upsertedHost (inv : AnsibleInventory) (hostname : String)
    (groups : List String) (host_vars : List (String × AttrVal)) : AnsibleHost :=
  match dlookup inv.hosts hostname with
  | some h => h.update groups host_vars
  | none => AnsibleHost.init hostname groups host_vars

def AnsibleInventory.update_hosts (inv : AnsibleInventory) (hostname : String)
    (groups : List String) (host_vars : List (String × AttrVal)) : AnsibleInventory :=
  let host := inv.upsertedHost hostname groups host_vars
  let inv' : AnsibleInventory := { inv with hosts := dictSet inv.hosts hostname host }
  (finSort host.groups).foldl
    (fun i groupname => i.update_groups groupname [] [hostname] []) inv'

/-- One entry of the serialized inventory document: either the `"_meta"`
section holding per-host variables, or one group section. -/
inductive Entry
  | meta (hostvars : List (String × List (String × AttrVal)))
  | group (children : List String) (hosts : List String) (vars : List (String × AttrVal))
deriving DecidableEq

/-- The serialized section of one group (`AnsibleGroup.to_dict` after
`AnsibleGroup.tidy`). -/
def groupEntry (g : AnsibleGroup) : Entry :=
  Entry.group g.tidyChildren g.tidyHosts g.group_vars

/-- The `"_meta"` hostvars section: per hostname, the variables of that host. -/
def metaEntry (inv : AnsibleInventory) : Entry :=
  Entry.meta (inv.hosts.map (fun p => (p.1, p.2.get_vars)))

/-- `AnsibleInventory.to_dict`: start from the `"_meta"` hostvars section
built from the host dict, then write one section per group (via dict
assignment, so a group literally named `"_meta"` would overwrite the
metadata section, as in the source).  Group sections carry the tidied
(sorted) child and member lists. -/
def AnsibleInventory.to_dict (inv : AnsibleInventory) : List (String × Entry) :=
  inv.groups.foldl (fun out p => dictSet out p.1 (groupEntry p.2)) [("_meta", metaEntry inv)]

/-! ### Resource-to-model conversion -/

/-- Extract the strings of a list value; `none` when an element is not a
string (the untyped source would push the raw element into a set and fail
on unhashable values — a model boundary no relevant state reaches). -/
def strList? : List AttrVal → Option (List String)
  | [] => some []
  | AttrVal.s t :: rest => (strList? rest).map (fun ts => t :: ts)
  | _ :: _ => none

/-- `AnsibleInventory.add_host_resource`: convert an `ansible_host` resource.
The hostname must be a string and the groups a list of strings; other dynamic
shapes are the `illTyped` model boundary. -/
def AnsibleInventory.add_host_resource (inv : AnsibleInventory) (r : TerraformResource) :
    Except ReadErr AnsibleInventory :=
  match r.read_attr "inventory_hostname" with
  | AttrVal.s hostname =>
    match r.read_list_attr "groups" with
    | Except.error e => Except.error e
    | Except.ok glist =>
      match strList? (glist.getD []) with
      | none => Except.error ReadErr.illTyped
      | some groups =>
        Except.ok (inv.update_hosts hostname groups (r.read_dict_attr "vars"))
  | _ => Except.error ReadErr.illTyped

/-- `AnsibleInventory.add_host_var_resource`: convert an `ansible_host_var`
resource; the single variable may hold any value (`None` included, when the
`"value"` attribute is missing). -/
def AnsibleInventory.add_host_var_resource (inv : AnsibleInventory) (r : TerraformResource) :
    Except ReadErr AnsibleInventory :=
  match r.read_attr "inventory_hostname", r.read_attr "key" with
  | AttrVal.s hostname, AttrVal.s key =>
    Except.ok (inv.update_hosts hostname [] [(key, r.read_attr "value")])
  | _, _ => Except.error ReadErr.illTyped

/-- `AnsibleInventory.add_group_resource`: convert an `ansible_group`
resource.  Note the source passes the `children` list and the vars but never
the member-hosts argument. -/
def AnsibleInventory.add_group_resource (inv : AnsibleInventory) (r : TerraformResource) :
    Except ReadErr AnsibleInventory :=
  match r.read_attr "inventory_group_name" with
  | AttrVal.s groupname =>
    match r.read_list_attr "children" with
    | Except.error e => Except.error e
    | Except.ok clist =>
      match strList? (clist.getD []) with
      | none => Except.error ReadErr.illTyped
      | some children =>
        Except.ok (inv.update_groups groupname children [] (r.read_dict_attr "vars"))
  | _ => Except.error ReadErr.illTyped

/-- `AnsibleInventory.add_group_var_resource`: convert an `ansible_group_var`
resource. -/
def AnsibleInventory.add_group_var_resource (inv : AnsibleInventory) (r : TerraformResource) :
    Except ReadErr AnsibleInventory :=
  match r.read_attr "inventory_group_name", r.read_attr "key" with
  | AttrVal.s groupname, AttrVal.s key =>
    Except.ok (inv.update_groups groupname [] [] [(key, r.read_attr "value")])
  | _, _ => Except.error ReadErr.illTyped

/-- `AnsibleInventory.add_resource`: dispatch on `type()` (which the source
calls repeatedly; the calls are pure, so one shared read is equivalent, and a
missing type surfaces as the `MissingType` failure on the first call). -/
def AnsibleInventory.add_resource (inv : AnsibleInventory) (r : TerraformResource) :
    Except ReadErr AnsibleInventory :=
  match r.type? with
  | none => Except.error ReadErr.keyError
  | some t =>
    if t = "ansible_host" then inv.add_host_resource r
    else if t = "ansible_host_var" then inv.add_host_var_resource r
    else if t = "ansible_group" then inv.add_group_resource r
    else if t = "ansible_group_var" then inv.add_group_var_resource r
    else Except.ok inv

/-- The body of the `_main` loop: records whose `is_ansible()` is false are
skipped before dispatch. -/
def processResource (inv : AnsibleInventory) (r : TerraformResource) :
    Except ReadErr AnsibleInventory :=
  match r.is_ansible with
  | none => Except.error ReadErr.keyError
  | some b => if b then inv.add_resource r else Except.ok inv

/-! ### Model operations as data

The four recognized declaration kinds, at the level of the extracted field
values (the claims about the accumulation model quantify over sequences of
these operations). -/

inductive Op
  | host (hostname : String) (groups : List String) (host_vars : List (String × AttrVal))
  | hostvar (hostname key : String) (value : AttrVal)
  | group (groupname : String) (children : List String) (group_vars : List (String × AttrVal))
  | groupvar (groupname key : String) (value : AttrVal)

/-- Apply one declaration to the model, exactly as the four `add_*_resource`
handlers do. -/
def applyOp (inv : AnsibleInventory) : Op → AnsibleInventory
  | Op.host hostname groups host_vars => inv.update_hosts hostname groups host_vars
  | Op.hostvar hostname key value => inv.update_hosts hostname [] [(key, value)]
  | Op.group groupname children group_vars => inv.update_groups groupname children [] group_vars
  | Op.groupvar groupname key value => inv.update_groups groupname [] [] [(key, value)]

/-- Run a sequence of declarations from the fresh inventory. -/
def runOps (ops : List Op) : AnsibleInventory :=
  ops.foldl applyOp AnsibleInventory.empty

example :
    dlookup (AnsibleInventory.to_dict (runOps [Op.host "web1" ["webservers"] [("role", AttrVal.s "frontend")]])) "all"
      = some (Entry.group [] ["web1"] []) := by decide

example :
    dlookup (AnsibleInventory.to_dict (runOps [Op.host "web1" ["webservers"] [("role", AttrVal.s "frontend")]])) "webservers"
      = some (Entry.group [] ["web1"] []) := by decide

example :
    dlookup (AnsibleInventory.to_dict (runOps [Op.host "web1" ["webservers"] [("role", AttrVal.s "frontend")]])) "_meta"
      = some (Entry.meta [("web1", [("role", AttrVal.s "frontend")])]) := by decide

/-! ### Structural lemmas about the model operations -/

theorem mem_keys_dictSet {V : Type} (d : List (String × V)) (k : String) (v : V) (key : String) :
    key ∈ (dictSet d k v).map Prod.fst ↔ key ∈ d.map Prod.fst ∨ key = k := by
  rw [keys_dictSet]
  by_cases hmem : k ∈ d.map Prod.fst
  · simp only [hmem, if_true]
    constructor
    · exact Or.inl
    · rintro (h | rfl)
      · exact h
      · exact hmem
  · simp [hmem]

theorem dictSet_mem_self {V : Type} (d : List (String × V)) (k : String) (v : V) :
    (k, v) ∈ dictSet d k v := by
  induction d with
  | nil => simp [dictSet]
  | cons p rest ih =>
    obtain ⟨k', v'⟩ := p
    by_cases hk : k' = k
    · simp [dictSet, hk]
    · simp only [dictSet, if_neg hk]
      exact List.mem_cons_of_mem _ ih

theorem replaceAll_mem_key_eq {V : Type} (d : List (String × V)) (k : String) (v v' : V)
    (h : (k, v') ∈ replaceAll d k v) : v' = v := by
  induction d with
  | nil => simp [replaceAll] at h
  | cons p rest ih =>
    obtain ⟨k', v''⟩ := p
    by_cases hk : k' = k
    · simp only [replaceAll, if_pos hk, List.mem_cons] at h
      rcases h with h | h
      · exact (Prod.mk.injEq _ _ _ _ ▸ h).2
      · exact ih h
    · simp only [replaceAll, if_neg hk, List.mem_cons] at h
      rcases h with h | h
      · exact absurd (Prod.mk.injEq _ _ _ _ ▸ h).1.symm hk
      · exact ih h

theorem dictSet_mem_key_eq {V : Type} (d : List (String × V)) (k : String) (v v' : V)
    (h : (k, v') ∈ dictSet d k v) : v' = v := by
  induction d with
  | nil =>
    simp [dictSet] at h
    exact h
  | cons p rest ih =>
    obtain ⟨k', v''⟩ := p
    by_cases hk : k' = k
    · simp only [dictSet, if_pos hk, List.mem_cons] at h
      rcases h with h | h
      · exact (Prod.mk.injEq _ _ _ _ ▸ h).2
      · exact replaceAll_mem_key_eq rest k v v' h
    · simp only [dictSet, if_neg hk, List.mem_cons] at h
      rcases h with h | h
      · exact absurd (Prod.mk.injEq _ _ _ _ ▸ h).1.symm hk
      · exact ih h

/-- Reverse lookup of a key just written by `dictSet` (no key-uniqueness
assumption needed: `dictSet` leaves every binding of the key equal). -/
theorem dlookup_reverse_dictSet {V : Type} (d : List (String × V)) (k : String) (v : V) :
    dlookup (dictSet d k v).reverse k = some v := by
  apply dlookup_of_uniq
  · exact List.mem_reverse.mpr (dictSet_mem_self d k v)
  · intro v' hv'
    exact dictSet_mem_key_eq d k v v' (List.mem_reverse.mp hv')

theorem keys_map_value {V W : Type} (d : List (String × V)) (F : V → W) :
    (d.map (fun p => (p.1, F p.2))).map Prod.fst = d.map Prod.fst := by
  rw [List.map_map]
  rfl

/-- Fields of `AnsibleHost.update`. -/
theorem AnsibleHost.host_update_def (h : AnsibleHost) (groups : List String)
    (host_vars : List (String × AttrVal)) :
    (h.update groups host_vars).hostname = h.hostname ∧
    (h.update groups host_vars).groups = h.groups ∪ groups.toFinset ∧
    (h.update groups host_vars).host_vars = dictUpdate h.host_vars host_vars :=
  ⟨rfl, rfl, rfl⟩

/-- Fields of `AnsibleGroup.update`. -/
theorem AnsibleGroup.group_update_def (g : AnsibleGroup) (children hosts : List String)
    (group_vars : List (String × AttrVal)) :
    (g.update children hosts group_vars).groupname = g.groupname ∧
    (g.update children hosts group_vars).hosts = g.hosts ∪ hosts.toFinset ∧
    (g.update children hosts group_vars).children = g.children ∪ children.toFinset ∧
    (g.update children hosts group_vars).group_vars = dictUpdate g.group_vars group_vars :=
  ⟨rfl, rfl, rfl, rfl⟩

theorem ug_hosts (inv : AnsibleInventory) (gn : String) (ch hs : List String)
    (w : List (String × AttrVal)) : (inv.update_groups gn ch hs w).hosts = inv.hosts := by
  unfold AnsibleInventory.update_groups
  cases dlookup inv.groups gn <;> rfl

/-- The group the upsert stores under `gn`. -/
def upsertedGroup (inv : AnsibleInventory) (gn : String) (ch hs : List String)
    (w : List (String × AttrVal)) : AnsibleGroup :=
  match dlookup inv.groups gn with
  | some g => g.update ch hs w
  | none => AnsibleGroup.init gn ch hs w

theorem ug_groups (inv : AnsibleInventory) (gn : String) (ch hs : List String)
    (w : List (String × AttrVal)) :
    (inv.update_groups gn ch hs w).groups = dictSet inv.groups gn (upsertedGroup inv gn ch hs w) := by
  unfold AnsibleInventory.update_groups upsertedGroup
  cases dlookup inv.groups gn <;> rfl

theorem ug_groups_lookup_self (inv : AnsibleInventory) (gn : String) (ch hs : List String)
    (w : List (String × AttrVal)) :
    dlookup (inv.update_groups gn ch hs w).groups gn = some (upsertedGroup inv gn ch hs w) := by
  rw [ug_groups, dlookup_dictSet, if_pos rfl]

theorem ug_groups_lookup_other (inv : AnsibleInventory) (gn : String) (ch hs : List String)
    (w : List (String × AttrVal)) (k : String) (hk : k ≠ gn) :
    dlookup (inv.update_groups gn ch hs w).groups k = dlookup inv.groups k := by
  rw [ug_groups, dlookup_dictSet, if_neg hk]

theorem upsertedGroup_hosts_sup (inv : AnsibleInventory) (gn : String) (ch hs : List String)
    (w : List (String × AttrVal)) (x : String) (hx : x ∈ hs) :
    x ∈ (upsertedGroup inv gn ch hs w).hosts := by
  unfold upsertedGroup
  cases dlookup inv.groups gn with
  | some g => exact Finset.mem_union_right _ (List.mem_toFinset.mpr hx)
  | none => exact Finset.mem_union_right _ (List.mem_toFinset.mpr hx)

theorem upsertedGroup_children_sup (inv : AnsibleInventory) (gn : String) (ch hs : List String)
    (w : List (String × AttrVal)) (x : String) (hx : x ∈ ch) :
    x ∈ (upsertedGroup inv gn ch hs w).children := by
  unfold upsertedGroup
  cases dlookup inv.groups gn with
  | some g => exact Finset.mem_union_right _ (List.mem_toFinset.mpr hx)
  | none => exact Finset.mem_union_right _ (List.mem_toFinset.mpr hx)

theorem ug_mono (inv : AnsibleInventory) (gn : String) (ch hs : List String)
    (w : List (String × AttrVal)) (k : String) (g : AnsibleGroup)
    (h : dlookup inv.groups k = some g) :
    ∃ g', dlookup (inv.update_groups gn ch hs w).groups k = some g' ∧
      g.hosts ⊆ g'.hosts ∧ g.children ⊆ g'.children := by
  by_cases hk : k = gn
  · subst hk
    refine ⟨upsertedGroup inv k ch hs w, ug_groups_lookup_self inv k ch hs w, ?_⟩
    unfold upsertedGroup
    rw [h]
    exact ⟨Finset.subset_union_left, Finset.subset_union_left⟩
  · exact ⟨g, by rw [ug_groups_lookup_other inv gn ch hs w k hk]; exact h,
      subset_refl _, subset_refl _⟩

theorem ug_mem_keys (inv : AnsibleInventory) (gn : String) (ch hs : List String)
    (w : List (String × AttrVal)) (k : String) :
    k ∈ (inv.update_groups gn ch hs w).groups.map Prod.fst ↔
      k ∈ inv.groups.map Prod.fst ∨ k = gn := by
  rw [ug_groups]
  exact mem_keys_dictSet _ gn _ k

theorem ug_nodup_keys (inv : AnsibleInventory) (gn : String) (ch hs : List String)
    (w : List (String × AttrVal)) (h : (inv.groups.map Prod.fst).Nodup) :
    ((inv.update_groups gn ch hs w).groups.map Prod.fst).Nodup := by
  rw [ug_groups]
  exact nodup_keys_dictSet _ gn _ h

/-- The registration fold at the end of `update_hosts`. -/
def regFold (gns : List String) (hn : String) (inv : AnsibleInventory) : AnsibleInventory :=
  gns.foldl (fun i groupname => i.update_groups groupname [] [hn] []) inv

theorem update_hosts_eq_regFold (inv : AnsibleInventory) (hn : String) (g : List String)
    (w : List (String × AttrVal)) :
    inv.update_hosts hn g w =
      regFold (finSort (inv.upsertedHost hn g w).groups) hn
        { inv with hosts := dictSet inv.hosts hn (inv.upsertedHost hn g w) } := rfl

theorem regFold_hosts (gns : List String) (hn : String) (inv : AnsibleInventory) :
    (regFold gns hn inv).hosts = inv.hosts := by
  induction gns generalizing inv with
  | nil => rfl
  | cons a t ih => rw [regFold, List.foldl_cons, ← regFold, ih, ug_hosts]

theorem regFold_mono (gns : List String) (hn : String) (inv : AnsibleInventory)
    (k : String) (g : AnsibleGroup) (h : dlookup inv.groups k = some g) :
    ∃ g', dlookup (regFold gns hn inv).groups k = some g' ∧
      g.hosts ⊆ g'.hosts ∧ g.children ⊆ g'.children := by
  induction gns generalizing inv g with
  | nil => exact ⟨g, h, subset_refl _, subset_refl _⟩
  | cons a t ih =>
    obtain ⟨g1, hg1, hs1, hc1⟩ := ug_mono inv a [] [hn] [] k g h
    obtain ⟨g2, hg2, hs2, hc2⟩ := ih _ _ hg1
    exact ⟨g2, hg2, hs1.trans hs2, hc1.trans hc2⟩

theorem regFold_self (gns : List String) (hn : String) (inv : AnsibleInventory)
    (gn : String) (hmem : gn ∈ gns) :
    ∃ g, dlookup (regFold gns hn inv).groups gn = some g ∧ hn ∈ g.hosts := by
  induction gns generalizing inv with
  | nil => cases hmem
  | cons a t ih =>
    rcases List.mem_cons.mp hmem with rfl | hmem'
    · have h1 := ug_groups_lookup_self inv gn [] [hn] []
      have hmem1 : hn ∈ (upsertedGroup inv gn [] [hn] []).hosts :=
        upsertedGroup_hosts_sup inv gn [] [hn] [] hn (List.mem_singleton.mpr rfl)
      obtain ⟨g2, hg2, hs2, _⟩ := regFold_mono t hn _ gn _ h1
      exact ⟨g2, hg2, hs2 hmem1⟩
    · exact ih _ hmem'

theorem regFold_mem_keys (gns : List String) (hn : String) (inv : AnsibleInventory)
    (k : String) :
    k ∈ (regFold gns hn inv).groups.map Prod.fst ↔
      k ∈ inv.groups.map Prod.fst ∨ k ∈ gns := by
  induction gns generalizing inv with
  | nil => simp [regFold]
  | cons a t ih =>
    rw [regFold, List.foldl_cons, ← regFold, ih, ug_mem_keys]
    simp only [List.mem_cons]
    tauto

theorem regFold_nodup_keys (gns : List String) (hn : String) (inv : AnsibleInventory)
    (h : (inv.groups.map Prod.fst).Nodup) : ((regFold gns hn inv).groups.map Prod.fst).Nodup := by
  induction gns generalizing inv with
  | nil => exact h
  | cons a t ih => exact ih _ (ug_nodup_keys inv a [] [hn] [] h)

theorem uh_hosts (inv : AnsibleInventory) (hn : String) (g : List String)
    (w : List (String × AttrVal)) :
    (inv.update_hosts hn g w).hosts = dictSet inv.hosts hn (inv.upsertedHost hn g w) := by
  rw [update_hosts_eq_regFold, regFold_hosts]

theorem uh_hosts_lookup_self (inv : AnsibleInventory) (hn : String) (g : List String)
    (w : List (String × AttrVal)) :
    dlookup (inv.update_hosts hn g w).hosts hn = some (inv.upsertedHost hn g w) := by
  rw [uh_hosts, dlookup_dictSet, if_pos rfl]

theorem uh_hosts_lookup_other (inv : AnsibleInventory) (hn : String) (g : List String)
    (w : List (String × AttrVal)) (k : String) (hk : k ≠ hn) :
    dlookup (inv.update_hosts hn g w).hosts k = dlookup inv.hosts k := by
  rw [uh_hosts, dlookup_dictSet, if_neg hk]

theorem uh_groups_mono (inv : AnsibleInventory) (hn : String) (g : List String)
    (w : List (String × AttrVal)) (k : String) (gq : AnsibleGroup)
    (h : dlookup inv.groups k = some gq) :
    ∃ g', dlookup (inv.update_hosts hn g w).groups k = some g' ∧
      gq.hosts ⊆ g'.hosts ∧ gq.children ⊆ g'.children := by
  rw [update_hosts_eq_regFold]
  exact regFold_mono _ hn _ k gq h

theorem uh_registers (inv : AnsibleInventory) (hn : String) (g : List String)
    (w : List (String × AttrVal)) (gn : String)
    (hgn : gn ∈ (inv.upsertedHost hn g w).groups) :
    ∃ g', dlookup (inv.update_hosts hn g w).groups gn = some g' ∧ hn ∈ g'.hosts := by
  rw [update_hosts_eq_regFold]
  exact regFold_self _ hn _ gn ((mem_finSort _ gn).mpr hgn)

theorem uh_mem_keys (inv : AnsibleInventory) (hn : String) (g : List String)
    (w : List (String × AttrVal)) (k : String) :
    k ∈ (inv.update_hosts hn g w).groups.map Prod.fst ↔
      k ∈ inv.groups.map Prod.fst ∨ k ∈ (inv.upsertedHost hn g w).groups := by
  rw [update_hosts_eq_regFold, regFold_mem_keys]
  rw [mem_finSort]

theorem uh_nodup_keys (inv : AnsibleInventory) (hn : String) (g : List String)
    (w : List (String × AttrVal)) (h : (inv.groups.map Prod.fst).Nodup) :
    ((inv.update_hosts hn g w).groups.map Prod.fst).Nodup := by
  rw [update_hosts_eq_regFold]
  exact regFold_nodup_keys _ hn _ h

theorem upsertedHost_groups (inv : AnsibleInventory) (hn : String) (g : List String)
    (w : List (String × AttrVal)) :
    (inv.upsertedHost hn g w).groups =
      (match dlookup inv.hosts hn with
       | some h => h.groups
       | none => ({"all"} : Finset String)) ∪ g.toFinset := by
  unfold AnsibleInventory.upsertedHost
  cases dlookup inv.hosts hn <;> rfl

theorem upsertedHost_hostname (inv : AnsibleInventory) (hn : String) (g : List String)
    (w : List (String × AttrVal)) :
    (inv.upsertedHost hn g w).hostname =
      (match dlookup inv.hosts hn with
       | some h => h.hostname
       | none => hn) := by
  unfold AnsibleInventory.upsertedHost
  cases dlookup inv.hosts hn <;> rfl

theorem upsertedHost_host_vars (inv : AnsibleInventory) (hn : String) (g : List String)
    (w : List (String × AttrVal)) :
    (inv.upsertedHost hn g w).host_vars =
      (match dlookup inv.hosts hn with
       | some h => dictUpdate h.host_vars w
       | none => dictUpdate [] w) := by
  unfold AnsibleInventory.upsertedHost
  cases dlookup inv.hosts hn <;> rfl

/-! ### Invariants preserved by the operation sequence -/

/-- Every stored host is a member of the universal group `"all"` (established
by `AnsibleHost.__init__`, preserved because membership only grows). -/
def Iall (inv : AnsibleInventory) : Prop :=
  ∀ hn h, dlookup inv.hosts hn = some h → "all" ∈ h.groups

/-- Keys of both internal dicts are unique (they are Python dicts). -/
def NodupKeys (inv : AnsibleInventory) : Prop :=
  (inv.groups.map Prod.fst).Nodup ∧ (inv.hosts.map Prod.fst).Nodup

theorem Iall_empty : Iall AnsibleInventory.empty := by
  intro hn h hcontr
  simp [AnsibleInventory.empty] at hcontr

theorem NodupKeys_empty : NodupKeys AnsibleInventory.empty :=
  ⟨List.nodup_nil, List.nodup_nil⟩

theorem mem_all_upsertedHost (inv : AnsibleInventory) (hn : String) (g : List String)
    (w : List (String × AttrVal)) (hIall : Iall inv) :
    "all" ∈ (inv.upsertedHost hn g w).groups := by
  rw [upsertedHost_groups]
  apply Finset.mem_union_left
  cases hh : dlookup inv.hosts hn with
  | some h => exact hIall hn h hh
  | none => exact Finset.mem_singleton_self _

theorem Iall_ug (inv : AnsibleInventory) (gn : String) (ch hs : List String)
    (w : List (String × AttrVal)) (hIall : Iall inv) : Iall (inv.update_groups gn ch hs w) := by
  intro hn h
  rw [ug_hosts]
  exact hIall hn h

theorem Iall_uh (inv : AnsibleInventory) (hn0 : String) (g : List String)
    (w : List (String × AttrVal)) (hIall : Iall inv) : Iall (inv.update_hosts hn0 g w) := by
  intro hn h
  rw [uh_hosts, dlookup_dictSet]
  by_cases hk : hn = hn0
  · rw [if_pos hk]
    intro he
    cases he
    exact mem_all_upsertedHost inv hn0 g w hIall
  · rw [if_neg hk]
    exact hIall hn h

theorem Iall_applyOp (inv : AnsibleInventory) (op : Op) (h : Iall inv) : Iall (applyOp inv op) := by
  cases op with
  | host hn g w => exact Iall_uh inv hn g w h
  | hostvar hn k v => exact Iall_uh inv hn [] [(k, v)] h
  | group gn ch w => exact Iall_ug inv gn ch [] w h
  | groupvar gn k v => exact Iall_ug inv gn [] [] [(k, v)] h

theorem NodupKeys_applyOp (inv : AnsibleInventory) (op : Op) (h : NodupKeys inv) :
    NodupKeys (applyOp inv op) := by
  have hhosts : ∀ hn g w, ((inv.update_hosts hn g w).hosts.map Prod.fst).Nodup := by
    intro hn g w
    rw [uh_hosts]
    exact nodup_keys_dictSet _ hn _ h.2
  cases op with
  | host hn g w => exact ⟨uh_nodup_keys inv hn g w h.1, hhosts hn g w⟩
  | hostvar hn k v => exact ⟨uh_nodup_keys inv hn [] [(k, v)] h.1, hhosts hn [] [(k, v)]⟩
  | group gn ch w =>
    refine ⟨ug_nodup_keys inv gn ch [] w h.1, ?_⟩
    show ((inv.update_groups gn ch [] w).hosts.map Prod.fst).Nodup
    rw [ug_hosts]
    exact h.2
  | groupvar gn k v =>
    refine ⟨ug_nodup_keys inv gn [] [] [(k, v)] h.1, ?_⟩
    show ((inv.update_groups gn [] [] [(k, v)]).hosts.map Prod.fst).Nodup
    rw [ug_hosts]
    exact h.2

theorem Iall_foldOps (ops : List Op) (inv : AnsibleInventory) (h : Iall inv) :
    Iall (ops.foldl applyOp inv) := by
  induction ops generalizing inv with
  | nil => exact h
  | cons op t ih => exact ih _ (Iall_applyOp inv op h)

theorem Iall_runOps (ops : List Op) : Iall (runOps ops) :=
  Iall_foldOps ops _ Iall_empty

theorem NodupKeys_foldOps (ops : List Op) (inv : AnsibleInventory) (h : NodupKeys inv) :
    NodupKeys (ops.foldl applyOp inv) := by
  induction ops generalizing inv with
  | nil => exact h
  | cons op t ih => exact ih _ (NodupKeys_applyOp inv op h)

theorem NodupKeys_runOps (ops : List Op) : NodupKeys (runOps ops) :=
  NodupKeys_foldOps ops _ NodupKeys_empty

theorem applyOp_groups_mono (inv : AnsibleInventory) (op : Op) (k : String) (g : AnsibleGroup)
    (h : dlookup inv.groups k = some g) :
    ∃ g', dlookup (applyOp inv op).groups k = some g' ∧
      g.hosts ⊆ g'.hosts ∧ g.children ⊆ g'.children := by
  cases op with
  | host hn gs w => exact uh_groups_mono inv hn gs w k g h
  | hostvar hn key v => exact uh_groups_mono inv hn [] [(key, v)] k g h
  | group gn ch w => exact ug_mono inv gn ch [] w k g h
  | groupvar gn key v => exact ug_mono inv gn [] [] [(key, v)] k g h

theorem foldOps_groups_mono (ops : List Op) (inv : AnsibleInventory) (k : String)
    (g : AnsibleGroup) (h : dlookup inv.groups k = some g) :
    ∃ g', dlookup (ops.foldl applyOp inv).groups k = some g' ∧
      g.hosts ⊆ g'.hosts ∧ g.children ⊆ g'.children := by
  induction ops generalizing inv g with
  | nil => exact ⟨g, h, subset_refl _, subset_refl _⟩
  | cons op t ih =>
    obtain ⟨g1, hg1, hs1, hc1⟩ := applyOp_groups_mono inv op k g h
    obtain ⟨g2, hg2, hs2, hc2⟩ := ih _ _ hg1
    exact ⟨g2, hg2, hs1.trans hs2, hc1.trans hc2⟩

/-! ### Serialization lemmas -/

theorem to_dict_lookup (inv : AnsibleInventory) (k : String) :
    dlookup inv.to_dict k =
      oE (dlookup ((inv.groups.map (fun p => (p.1, groupEntry p.2))).reverse) k)
        (dlookup [("_meta", metaEntry inv)] k) := by
  have h := dlookup_foldl_dictSet (inv.groups.map (fun p => (p.1, groupEntry p.2)))
    [("_meta", metaEntry inv)] k
  rw [List.foldl_map] at h
  exact h

/-- When no group is named `"_meta"`, the `"_meta"` key of the output is the
hostvars section. -/
theorem to_dict_meta_of_not_group (inv : AnsibleInventory)
    (hnot : "_meta" ∉ inv.groups.map Prod.fst) :
    dlookup inv.to_dict "_meta" = some (metaEntry inv) := by
  rw [to_dict_lookup]
  have hnone : dlookup ((inv.groups.map (fun p => (p.1, groupEntry p.2))).reverse) "_meta"
      = none := by
    apply dlookup_eq_none_of_not_mem_keys
    intro hc
    apply hnot
    rw [List.map_reverse] at hc
    have := List.mem_reverse.mp hc
    rwa [keys_map_value] at this
  rw [hnone]
  simp

/-- Any `"_meta"`-style entry in the output is the hostvars section built
from the host dict (group sections always use the `group` constructor). -/
theorem to_dict_meta_inv (inv : AnsibleInventory) (k : String)
    (hv : List (String × List (String × AttrVal)))
    (h : dlookup inv.to_dict k = some (Entry.meta hv)) :
    hv = inv.hosts.map (fun p => (p.1, p.2.get_vars)) ∧ k = "_meta" := by
  rw [to_dict_lookup] at h
  cases hg : dlookup ((inv.groups.map (fun p => (p.1, groupEntry p.2))).reverse) k with
  | some e =>
    rw [hg] at h
    simp only [oE_some, Option.some.injEq] at h
    have hmem := List.mem_reverse.mp (dlookup_mem hg)
    rcases List.mem_map.mp hmem with ⟨p, _, hpe⟩
    have he : groupEntry p.2 = e := congrArg Prod.snd hpe
    rw [← he, groupEntry] at h
    cases h
  | none =>
    rw [hg] at h
    simp only [oE_none, dlookup_cons, dlookup_nil] at h
    by_cases hk : k = "_meta"
    · subst hk
      rw [if_pos rfl] at h
      cases h
      exact ⟨rfl, rfl⟩
    · rw [if_neg (fun hc => hk hc.symm)] at h
      cases h

/-- With unique group keys, every stored group serializes to its own section. -/
theorem to_dict_group_of_nodup (inv : AnsibleInventory) (gn : String) (g : AnsibleGroup)
    (hnodup : (inv.groups.map Prod.fst).Nodup) (h : dlookup inv.groups gn = some g) :
    dlookup inv.to_dict gn = some (groupEntry g) := by
  rw [to_dict_lookup]
  have hk : ((inv.groups.map (fun p => (p.1, groupEntry p.2))).map Prod.fst).Nodup := by
    rw [keys_map_value]
    exact hnodup
  rw [dlookup_reverse_of_nodup _ hk, dlookup_map_value, h]
  rfl

/-- Immediately after an `update_groups`, the written group serializes to its
own section, with no uniqueness assumption (every binding of the key was
rewritten to the same group). -/
theorem to_dict_group_after_ug (inv : AnsibleInventory) (gn : String) (ch hs : List String)
    (w : List (String × AttrVal)) :
    dlookup (inv.update_groups gn ch hs w).to_dict gn =
      some (groupEntry (upsertedGroup inv gn ch hs w)) := by
  rw [to_dict_lookup]
  have hrev : dlookup
      (((inv.update_groups gn ch hs w).groups.map (fun p => (p.1, groupEntry p.2))).reverse) gn
      = some (groupEntry (upsertedGroup inv gn ch hs w)) := by
    apply dlookup_of_uniq
    · apply List.mem_reverse.mpr
      apply List.mem_map.mpr
      refine ⟨(gn, upsertedGroup inv gn ch hs w), ?_, rfl⟩
      rw [ug_groups]
      exact dictSet_mem_self _ _ _
    · intro v' hv'
      rcases List.mem_map.mp (List.mem_reverse.mp hv') with ⟨p, hp, hpe⟩
      obtain ⟨p1, p2⟩ := p
      have hp1 : p1 = gn := congrArg Prod.fst hpe
      have hp2 : groupEntry p2 = v' := congrArg Prod.snd hpe
      subst hp1
      rw [ug_groups] at hp
      rw [← hp2, dictSet_mem_key_eq inv.groups p1 _ p2 hp]
  rw [hrev]
  rfl

/-! ### Claim theorems -/

/-- C6: applying the upsert of the same host declaration twice in succession, from
any model state, leaves the same final Host state as applying it once — the
same hostname, the same group-membership set, and the same variable mapping
(stated key-wise, which is what equality of the mapping means). -/
theorem claim_C6 (inv : AnsibleInventory) (hn : String) (g : List String)
    (w : List (String × AttrVal)) :
    ∃ h1 h2,
      dlookup (inv.update_hosts hn g w).hosts hn = some h1 ∧
      dlookup ((inv.update_hosts hn g w).update_hosts hn g w).hosts hn = some h2 ∧
      h2.hostname = h1.hostname ∧ h2.groups = h1.groups ∧
      ∀ k, dlookup h2.host_vars k = dlookup h1.host_vars k := by
  refine ⟨inv.upsertedHost hn g w, (inv.update_hosts hn g w).upsertedHost hn g w,
    uh_hosts_lookup_self inv hn g w, uh_hosts_lookup_self _ hn g w, ?_⟩
  have h2eq : (inv.update_hosts hn g w).upsertedHost hn g w =
      (inv.upsertedHost hn g w).update g w := by
    unfold AnsibleInventory.upsertedHost
    rw [uh_hosts_lookup_self inv hn g w]
    rfl
  rw [h2eq]
  refine ⟨rfl, ?_, ?_⟩
  · show (inv.upsertedHost hn g w).groups ∪ g.toFinset = (inv.upsertedHost hn g w).groups
    rw [upsertedHost_groups, Finset.union_assoc, Finset.union_self]
  · intro k
    show dlookup (dictUpdate (inv.upsertedHost hn g w).host_vars w) k = _
    rw [upsertedHost_host_vars]
    cases dlookup inv.hosts hn <;> exact dlookup_dictUpdate_idem _ w k

/-- C7: a record whose type does not carry the `"ansible_"` provider prefix is
skipped before dispatch, and a record whose type is not one of the four
recognized declaration types is dispatched to no handler: in both cases the
inventory is returned unchanged, and the result does not depend on the
attributes of the record (no type-specific attribute is read). -/
theorem claim_C7 (inv : AnsibleInventory) (r : TerraformResource) (t : String)
    (ht : r.type? = some t) :
    (¬ strStartsWith t "ansible_" → processResource inv r = Except.ok inv)
    ∧ (t ≠ "ansible_host" → t ≠ "ansible_host_var" → t ≠ "ansible_group" →
        t ≠ "ansible_group_var" →
        inv.add_resource r = Except.ok inv
        ∧ processResource inv r = Except.ok inv
        ∧ ∀ attrs2, processResource inv { r with attributes := attrs2 } = Except.ok inv) := by
  have htype2 : ∀ attrs2, ({ r with attributes := attrs2 } : TerraformResource).type? = some t := by
    intro attrs2
    exact ht
  have hproc_eq : ∀ r' : TerraformResource, r'.type? = some t →
      processResource inv r' =
        if strStartsWith t "ansible_" then inv.add_resource r' else Except.ok inv := by
    intro r' ht'
    unfold processResource TerraformResource.is_ansible
    rw [ht']
    rfl
  have hadd_eq : ∀ r' : TerraformResource, r'.type? = some t →
      inv.add_resource r' =
        (if t = "ansible_host" then inv.add_host_resource r'
         else if t = "ansible_host_var" then inv.add_host_var_resource r'
         else if t = "ansible_group" then inv.add_group_resource r'
         else if t = "ansible_group_var" then inv.add_group_var_resource r'
         else Except.ok inv) := by
    intro r' ht'
    unfold AnsibleInventory.add_resource
    rw [ht']
  constructor
  · intro hpre
    rw [hproc_eq r ht, if_neg hpre]
  · intro h1 h2 h3 h4
    have hadd : ∀ (r' : TerraformResource), r'.type? = some t →
        inv.add_resource r' = Except.ok inv := by
      intro r' ht'
      rw [hadd_eq r' ht']
      simp only [h1, h2, h3, h4, if_false]
    have haddr : inv.add_resource r = Except.ok inv := hadd r ht
    have hproc : ∀ attrs2, processResource inv { r with attributes := attrs2 }
        = Except.ok inv := by
      intro attrs2
      rw [hproc_eq _ (htype2 attrs2)]
      by_cases hb : strStartsWith t "ansible_"
      · rw [if_pos hb]
        exact hadd _ (htype2 attrs2)
      · rw [if_neg hb]
    exact ⟨haddr, hproc r.attributes, hproc⟩

/-- C8: an `update_groups` never creates Host entries: the host dict is left
unchanged, a hostname referenced only in the `hosts` (or `children`) argument
gets no entry in the serialized `_meta.hostvars` section, while the group's
serialized member (resp. children) list does contain the name. -/
theorem claim_C8 (inv : AnsibleInventory) (gn : String) (ch hs : List String)
    (w : List (String × AttrVal)) (x : String) (hx : dlookup inv.hosts x = none) :
    (inv.update_groups gn ch hs w).hosts = inv.hosts
    ∧ dlookup (inv.update_groups gn ch hs w).hosts x = none
    ∧ (∀ hv, dlookup (inv.update_groups gn ch hs w).to_dict "_meta" = some (Entry.meta hv) →
        dlookup hv x = none)
    ∧ (x ∈ hs → ∃ chl hsl vl,
        dlookup (inv.update_groups gn ch hs w).to_dict gn = some (Entry.group chl hsl vl)
        ∧ x ∈ hsl)
    ∧ (x ∈ ch → ∃ chl hsl vl,
        dlookup (inv.update_groups gn ch hs w).to_dict gn = some (Entry.group chl hsl vl)
        ∧ x ∈ chl) := by
  have hhosts := ug_hosts inv gn ch hs w
  refine ⟨hhosts, by rw [hhosts]; exact hx, ?_, ?_, ?_⟩
  · intro hv hmeta
    obtain ⟨hveq, -⟩ := to_dict_meta_inv _ _ hv hmeta
    rw [hveq, hhosts, dlookup_map_value, hx]
    rfl
  · intro hxhs
    refine ⟨(upsertedGroup inv gn ch hs w).tidyChildren, (upsertedGroup inv gn ch hs w).tidyHosts,
      (upsertedGroup inv gn ch hs w).group_vars, to_dict_group_after_ug inv gn ch hs w, ?_⟩
    rw [AnsibleGroup.tidyHosts, mem_finSort]
    exact upsertedGroup_hosts_sup inv gn ch hs w x hxhs
  · intro hxch
    refine ⟨(upsertedGroup inv gn ch hs w).tidyChildren, (upsertedGroup inv gn ch hs w).tidyHosts,
      (upsertedGroup inv gn ch hs w).group_vars, to_dict_group_after_ug inv gn ch hs w, ?_⟩
    rw [AnsibleGroup.tidyChildren, mem_finSort]
    exact upsertedGroup_children_sup inv gn ch hs w x hxch

/-- C8 witness: a group upserted with a never-declared member hostname. -/
theorem claim_C8_witness :
    dlookup (AnsibleInventory.empty.update_groups "g1" ["child"] ["ghost"] []).hosts "ghost" = none
    ∧ (∃ chl hsl vl,
        dlookup (AnsibleInventory.empty.update_groups "g1" ["child"] ["ghost"] []).to_dict "g1"
          = some (Entry.group chl hsl vl) ∧ "ghost" ∈ hsl) := by
  have h := claim_C8 AnsibleInventory.empty "g1" ["child"] ["ghost"] [] "ghost" (by decide)
  exact ⟨h.2.1, h.2.2.2.1 (by decide)⟩

theorem toFinset_eq_of_perm (l1 l2 : List String) (h : List.Perm l1 l2) :
    l1.toFinset = l2.toFinset := by
  ext a
  simp only [List.mem_toFinset]
  exact h.mem_iff

/-- C9: serialized group children and hosts lists, and the tidied host
membership sequence, are always sorted (lexicographically, the string order);
and the serialization is a function of the underlying sets, so permuting the
accumulated input lists cannot change it. -/
theorem claim_C9 :
    (∀ h : AnsibleHost, List.Sorted (· ≤ ·) h.tidy)
    ∧ (∀ g : AnsibleGroup, List.Sorted (· ≤ ·) g.tidyChildren ∧ List.Sorted (· ≤ ·) g.tidyHosts)
    ∧ (∀ (inv : AnsibleInventory) (gn : String) (chl hsl : List String)
        (vl : List (String × AttrVal)),
        dlookup inv.to_dict gn = some (Entry.group chl hsl vl) →
        List.Sorted (· ≤ ·) chl ∧ List.Sorted (· ≤ ·) hsl)
    ∧ (∀ (h : AnsibleHost) (gs1 gs2 : List String) (w : List (String × AttrVal)),
        List.Perm gs1 gs2 → (h.update gs1 w).tidy = (h.update gs2 w).tidy)
    ∧ (∀ (g : AnsibleGroup) (ch1 ch2 hs1 hs2 : List String) (w : List (String × AttrVal)),
        List.Perm ch1 ch2 → List.Perm hs1 hs2 →
        (g.update ch1 hs1 w).tidyChildren = (g.update ch2 hs2 w).tidyChildren
        ∧ (g.update ch1 hs1 w).tidyHosts = (g.update ch2 hs2 w).tidyHosts) := by
  refine ⟨fun h => sorted_finSort _, fun g => ⟨sorted_finSort _, sorted_finSort _⟩, ?_, ?_, ?_⟩
  · intro inv gn chl hsl vl h
    rw [to_dict_lookup] at h
    cases hg : dlookup ((inv.groups.map (fun p => (p.1, groupEntry p.2))).reverse) gn with
    | some e =>
      rw [hg] at h
      simp only [oE_some, Option.some.injEq] at h
      rcases List.mem_map.mp (List.mem_reverse.mp (dlookup_mem hg)) with ⟨p, -, hpe⟩
      have he : groupEntry p.2 = e := congrArg Prod.snd hpe
      rw [← he, groupEntry] at h
      cases h
      exact ⟨sorted_finSort _, sorted_finSort _⟩
    | none =>
      rw [hg] at h
      simp only [oE_none, dlookup_cons, dlookup_nil] at h
      by_cases hk : gn = "_meta"
      · subst hk
        rw [if_pos rfl] at h
        cases h
      · rw [if_neg (fun hc => hk hc.symm)] at h
        cases h
  · intro h gs1 gs2 w hperm
    show finSort (h.groups ∪ gs1.toFinset) = finSort (h.groups ∪ gs2.toFinset)
    rw [toFinset_eq_of_perm gs1 gs2 hperm]
  · intro g ch1 ch2 hs1 hs2 w hpc hph
    constructor
    · show finSort (g.children ∪ ch1.toFinset) = finSort (g.children ∪ ch2.toFinset)
      rw [toFinset_eq_of_perm ch1 ch2 hpc]
    · show finSort (g.hosts ∪ hs1.toFinset) = finSort (g.hosts ∪ hs2.toFinset)
      rw [toFinset_eq_of_perm hs1 hs2 hph]

/-- C9 witness: the serialized section of a concrete one-host inventory run
has sorted lists. -/
theorem claim_C9_witness :
    List.Sorted (· ≤ ·)
      (AnsibleGroup.tidyChildren ⟨"g", ∅, ∅, []⟩)
    ∧ List.Sorted (· ≤ ·) (AnsibleGroup.tidyHosts ⟨"g", ∅, ∅, []⟩) :=
  claim_C9.2.2.1 ⟨[("g", ⟨"g", ∅, ∅, []⟩)], []⟩ "g"
    (AnsibleGroup.tidyChildren ⟨"g", ∅, ∅, []⟩)
    (AnsibleGroup.tidyHosts ⟨"g", ∅, ∅, []⟩) [] rfl

/-- A record of an unrelated provider (concrete input for the C7 witness). -/
def rC7 : TerraformResource :=
  ⟨false, some "aws_instance", none, [("inventory_hostname", AttrVal.s "x")]⟩

/-- C7 witness: the unrelated record above is skipped and dispatched nowhere. -/
theorem claim_C7_witness :
    processResource AnsibleInventory.empty rC7 = Except.ok AnsibleInventory.empty ∧
    AnsibleInventory.add_resource AnsibleInventory.empty rC7 = Except.ok AnsibleInventory.empty := by
  have h := claim_C7 AnsibleInventory.empty rC7 "aws_instance" (by decide)
  exact ⟨h.1 (by decide), (h.2 (by decide) (by decide) (by decide) (by decide)).1⟩

/-- The legacy index loop succeeds and returns exactly the listed values when
every listed index key is bound to the corresponding value. -/
theorem readIndexed_ok (attrs : List (String × AttrVal)) (key : String) (l : List Nat)
    (vs : List AttrVal) (hlen : vs.length = l.length)
    (h : ∀ j, j < l.length →
      dlookup attrs (key ++ "." ++ toString (l.getD j 0)) = some (vs.getD j AttrVal.null)) :
    readIndexed attrs key l = Except.ok vs := by
  induction l generalizing vs with
  | nil =>
    cases vs with
    | nil => rfl
    | cons v vt => simp at hlen
  | cons i t ih =>
    cases vs with
    | nil => simp at hlen
    | cons v vt =>
      have h0 := h 0 (by simp)
      simp only [List.getD_cons_zero] at h0
      have hrest : readIndexed attrs key t = Except.ok vt := by
        apply ih vt (by simpa using hlen)
        intro j hj
        have := h (j + 1) (by simpa using hj)
        simpa using this
      unfold readIndexed
      rw [h0, hrest]

/-- C2: in the legacy shape, a length marker that is the decimal string of
`n ≥ 1` makes `read_list_attr` return exactly the `n` values stored at the
indexed keys in order; a missing marker, or a marker denoting `0`, yields the
empty list. -/
theorem claim_C2 (r : TerraformResource) (key s : String) (n : Nat) (vs : List AttrVal)
    (hflat : r.flat_attrs = true) :
    (dlookup r.attributes (key ++ ".#") = some (AttrVal.s s) → decValue? s = some n →
      1 ≤ n → vs.length = n →
      (∀ i, i < n → dlookup r.attributes (key ++ "." ++ toString i)
        = some (vs.getD i AttrVal.null)) →
      r.read_list_attr key = Except.ok (some vs))
    ∧ (dlookup r.attributes (key ++ ".#") = none →
      r.read_list_attr key = Except.ok (some []))
    ∧ (dlookup r.attributes (key ++ ".#") = some (AttrVal.s s) → decValue? s = some 0 →
      r.read_list_attr key = Except.ok (some [])) := by
  refine ⟨?_, ?_, ?_⟩
  · intro hmark hdec hge hlen hvals
    have hint : pyInt? s = some (n : Int) := pyInt?_of_decValue? s n hdec
    unfold TerraformResource.read_list_attr
    rw [hflat, if_pos rfl, hmark]
    simp only [markerInt?, hint]
    have hnot : ¬ ((n : Int) < 1) := by
      simp only [not_lt]
      exact_mod_cast hge
    rw [if_neg hnot]
    have htoNat : ((n : Int)).toNat = n := Int.toNat_natCast n
    rw [htoNat]
    have hread : readIndexed r.attributes key (List.range n) = Except.ok vs := by
      apply readIndexed_ok r.attributes key (List.range n) vs (by simpa using hlen)
      intro j hj
      rw [List.length_range] at hj
      have hget : (List.range n).getD j 0 = j := by
        rw [List.getD_eq_getElem _ _ (by simpa using hj)]
        simp
      rw [hget]
      exact hvals j hj
    rw [hread]
  · intro hmark
    unfold TerraformResource.read_list_attr
    rw [hflat, if_pos rfl, hmark]
  · intro hmark hdec
    have hint : pyInt? s = some ((0 : Nat) : Int) := pyInt?_of_decValue? s 0 hdec
    unfold TerraformResource.read_list_attr
    rw [hflat, if_pos rfl, hmark]
    simp only [markerInt?, hint]
    rw [if_pos (by norm_num : ((0 : Nat) : Int) < 1)]

/-- A legacy resource with a two-element flattened list (C2 witness input). -/
def rC2 : TerraformResource :=
  ⟨true, none, none,
    [("groups.#", AttrVal.s "2"), ("groups.0", AttrVal.s "a"), ("groups.1", AttrVal.s "b")]⟩

/-- C2 witness: the two listed values come back in index order. -/
theorem claim_C2_witness :
    TerraformResource.read_list_attr rC2 "groups"
      = Except.ok (some [AttrVal.s "a", AttrVal.s "b"]) :=
  (claim_C2 rC2 "groups" "2" 2 [AttrVal.s "a", AttrVal.s "b"] rfl).1
    (by decide) (by decide) (by decide) (by decide) (by decide)

/-- A legacy resource whose length marker is the negative integer string
`"-1"` (concrete refuting input for C3). -/
def rC3 : TerraformResource := ⟨true, none, none, [("groups.#", AttrVal.s "-1")]⟩

/-- C3 counterexample: `"-1"` is not the decimal string of a non-negative
integer, yet `read_list_attr` does not fail — the Python `int` parses the
negative value, the `length < 1` test then returns the empty list. -/
theorem claim_C3_counterexample :
    decValue? "-1" = none
    ∧ pyInt? "-1" = some (-1)
    ∧ TerraformResource.read_list_attr rC3 "groups" = Except.ok (some []) := by
  refine ⟨by decide, by decide, ?_⟩
  decide

/-- C3 as amended: with the length marker present, `read_list_attr` fails
with `InvalidLength` exactly when the Python `int` rejects the marker value
(a non-numeric string, or a non-string value); a marker that parses to any
integer below one — including negative integers — yields the empty list
instead of failing. -/
theorem claim_C3_amended (r : TerraformResource) (key : String) (v : AttrVal) (m : Int)
    (hflat : r.flat_attrs = true)
    (hmark : dlookup r.attributes (key ++ ".#") = some v) :
    (markerInt? v = none → r.read_list_attr key = Except.error ReadErr.invalidLength)
    ∧ (markerInt? v = some m → m < 1 → r.read_list_attr key = Except.ok (some [])) := by
  constructor
  · intro hnone
    unfold TerraformResource.read_list_attr
    rw [hflat, if_pos rfl, hmark]
    simp only [hnone]
  · intro hsome hlt
    unfold TerraformResource.read_list_attr
    rw [hflat, if_pos rfl, hmark]
    simp only [hsome]
    rw [if_pos hlt]

/-- A legacy resource whose length marker is non-numeric. -/
def rC3b : TerraformResource := ⟨true, none, none, [("groups.#", AttrVal.s "zzz")]⟩

/-- C3 witness: the negative marker yields the empty list, the non-numeric
marker yields the `InvalidLength` failure. -/
theorem claim_C3_witness :
    TerraformResource.read_list_attr rC3 "groups" = Except.ok (some [])
    ∧ TerraformResource.read_list_attr rC3b "groups" = Except.error ReadErr.invalidLength :=
  ⟨(claim_C3_amended rC3 "groups" (AttrVal.s "-1") (-1) rfl (by decide)).2 (by decide) (by decide),
   (claim_C3_amended rC3b "groups" (AttrVal.s "zzz") 0 rfl (by decide)).1 (by decide)⟩

/-- The matches the legacy-map scan of `read_dict_attr` keeps, in scan
order: captured subkey with its value, omitting non-matches and the `"%"`
length marker. -/
def subEntries (key : String) (attrs : List (String × AttrVal)) : List (String × AttrVal) :=
  attrs.filterMap (fun p =>
    match regexSubkey key p.1 with
    | none => none
    | some sub => if sub = "%" then none else some (sub, p.2))

theorem dictScan_eq_fold (key : String) (attrs : List (String × AttrVal))
    (acc : List (String × AttrVal)) :
    attrs.foldl (dictScanStep key) acc =
      (subEntries key attrs).foldl (fun a q => dictSet a q.1 q.2) acc := by
  induction attrs generalizing acc with
  | nil => rfl
  | cons p t ih =>
    rw [List.foldl_cons]
    cases hrs : regexSubkey key p.1 with
    | none =>
      have hstep : dictScanStep key acc p = acc := by
        unfold dictScanStep
        rw [hrs]
      rw [hstep, ih]
      have hsub : subEntries key (p :: t) = subEntries key t := by
        unfold subEntries
        rw [List.filterMap_cons, hrs]
      rw [hsub]
    | some sub =>
      by_cases hs : sub = "%"
      · have hstep : dictScanStep key acc p = acc := by
          unfold dictScanStep
          rw [hrs]
          simp [hs]
        rw [hstep, ih]
        have hsub : subEntries key (p :: t) = subEntries key t := by
          unfold subEntries
          rw [List.filterMap_cons, hrs]
          simp [hs]
        rw [hsub]
      · have hstep : dictScanStep key acc p = dictSet acc sub p.2 := by
          unfold dictScanStep
          rw [hrs]
          simp [hs]
        have hsub : subEntries key (p :: t) = (sub, p.2) :: subEntries key t := by
          unfold subEntries
          rw [List.filterMap_cons, hrs]
          simp [hs]
        rw [hstep, ih, hsub, List.foldl_cons]

theorem read_dict_attr_flat_lookup (r : TerraformResource) (key : String)
    (hflat : r.flat_attrs = true) (sub : String) :
    dlookup (r.read_dict_attr key) sub = dlookup (subEntries key r.attributes).reverse sub := by
  unfold TerraformResource.read_dict_attr
  rw [hflat, if_pos rfl, dictScan_eq_fold, dlookup_foldl_dictSet]
  cases dlookup (subEntries key r.attributes).reverse sub <;> rfl

theorem mem_subEntries (key : String) (attrs : List (String × AttrVal)) (sub : String)
    (v : AttrVal) :
    (sub, v) ∈ subEntries key attrs ↔
      ∃ p, p ∈ attrs ∧ regexSubkey key p.1 = some sub ∧ sub ≠ "%" ∧ p.2 = v := by
  unfold subEntries
  rw [List.mem_filterMap]
  constructor
  · rintro ⟨p, hp, hf⟩
    cases hrs : regexSubkey key p.1 with
    | none => rw [hrs] at hf; cases hf
    | some s =>
      rw [hrs] at hf
      by_cases hs : s = "%"
      · simp [hs] at hf
      · simp only [hs, if_false] at hf
        injection hf with hf
        have h1 : s = sub := congrArg Prod.fst hf
        have h2 : p.2 = v := congrArg Prod.snd hf
        subst h1
        exact ⟨p, hp, hrs, hs, h2⟩
  · rintro ⟨p, hp, hrs, hs, hv⟩
    refine ⟨p, hp, ?_⟩
    rw [hrs]
    simp [hs, hv]

theorem mem_keys_iff {V : Type} (l : List (String × V)) (k : String) :
    k ∈ l.map Prod.fst ↔ ∃ v, (k, v) ∈ l := by
  rw [List.mem_map]
  constructor
  · rintro ⟨⟨a, b⟩, hp, hk⟩
    cases hk
    exact ⟨b, hp⟩
  · rintro ⟨v, hv⟩
    exact ⟨(k, v), hv, rfl⟩

theorem nodup_value_eq {V : Type} (l : List (String × V)) (k : String) (a b : V)
    (hnodup : (l.map Prod.fst).Nodup) (h1 : (k, a) ∈ l) (h2 : (k, b) ∈ l) : a = b := by
  induction l with
  | nil => cases h1
  | cons p t ih =>
    simp only [List.map_cons, List.nodup_cons] at hnodup
    rcases List.mem_cons.mp h1 with e1 | m1 <;> rcases List.mem_cons.mp h2 with e2 | m2
    · rw [← e1] at e2
      exact (congrArg Prod.snd e2.symm : _)
    · exfalso
      apply hnodup.1
      rw [← e1]
      exact (mem_keys_iff t k).mpr ⟨b, m2⟩
    · exfalso
      apply hnodup.1
      rw [← e2]
      exact (mem_keys_iff t k).mpr ⟨a, m1⟩
    · exact ih hnodup.2 m1 m2

theorem dlookup_of_mem_nodup {V : Type} (l : List (String × V)) (k : String) (v : V)
    (hnodup : (l.map Prod.fst).Nodup) (hmem : (k, v) ∈ l) : dlookup l k = some v :=
  dlookup_of_uniq hmem (fun v' hv' => nodup_value_eq l k v' v hnodup hv' hmem)

theorem dropPrefix?_iff (p : List Char) (cs rest : List Char) :
    dropPrefix? p cs = some rest ↔ cs = p ++ rest := by
  induction p generalizing cs with
  | nil =>
    simp only [dropPrefix?, Option.some.injEq, List.nil_append]
  | cons a ps ih =>
    cases cs with
    | nil =>
      simp [dropPrefix?]
    | cons c cs' =>
      by_cases hc : c = a
      · subst hc
        rw [dropPrefix?, if_pos rfl, ih]
        simp
      · rw [dropPrefix?, if_neg hc]
        simp [hc]

theorem takeWhile_eq_self_of_all {p : Char → Bool} (l : List Char)
    (h : ∀ c ∈ l, p c = true) : l.takeWhile p = l := by
  induction l with
  | nil => rfl
  | cons c t ih =>
    rw [List.takeWhile_cons_of_pos (h c (List.mem_cons_self _ _))]
    rw [ih (fun d hd => h d (List.mem_cons_of_mem _ hd))]

theorem regexSubkey_of_append (key sub : String) (hnl : ∀ c ∈ sub.data, c ≠ '\n') :
    regexSubkey key (key ++ "." ++ sub) = some sub := by
  unfold regexSubkey
  have hdata : (key ++ "." ++ sub).data = (key.data ++ ['.']) ++ sub.data := by
    rw [String.data_append, String.data_append]
  rw [hdata]
  have h1 : dropPrefix? (key.data ++ ['.']) (key.data ++ ['.'] ++ sub.data) = some sub.data :=
    (dropPrefix?_iff _ _ _).mpr rfl
  simp only [h1]
  rw [takeWhile_eq_self_of_all sub.data (fun c hc => by simpa using hnl c hc)]
  exact congrArg some (String.asString_toList sub)

theorem regexSubkey_some_inv (key k sub : String) (h : regexSubkey key k = some sub) :
    ∃ rest, k.data = key.data ++ '.' :: rest
      ∧ sub = (rest.takeWhile (fun c => c ≠ '\n')).asString := by
  unfold regexSubkey at h
  cases hdp : dropPrefix? (key.data ++ ['.']) k.data with
  | none => rw [hdp] at h; cases h
  | some rest =>
    rw [hdp] at h
    injection h with h
    refine ⟨rest, ?_, h.symm⟩
    have := (dropPrefix?_iff _ _ _).mp hdp
    rw [this, List.append_assoc]
    rfl

theorem regexSubkey_eq_append (key k sub : String) (h : regexSubkey key k = some sub)
    (hnl : ∀ c ∈ k.data, c ≠ '\n') : k = key ++ "." ++ sub := by
  obtain ⟨rest, hk, hsub⟩ := regexSubkey_some_inv key k sub h
  have hrestnl : ∀ c ∈ rest, c ≠ '\n' := by
    intro c hc
    apply hnl
    rw [hk]
    exact List.mem_append_right _ (List.mem_cons_of_mem _ hc)
  have htw : rest.takeWhile (fun c => decide (c ≠ '\n')) = rest :=
    takeWhile_eq_self_of_all rest (fun c hc => by simpa using hrestnl c hc)
  have hsubdata : sub.data = rest := by
    rw [hsub]
    show (rest.takeWhile _).asString.data = rest
    rw [htw]
    rfl
  apply String.toList_inj.mp
  show k.data = (key ++ "." ++ sub).data
  rw [hk, String.data_append, String.data_append, hsubdata, List.append_assoc]
  rfl

/-- A legacy resource with a newline inside a dotted subkey (concrete
refuting input for C4). -/
def rC4 : TerraformResource := ⟨true, none, none, [("vars.a\nb", AttrVal.s "v")]⟩

/-- C4 counterexample: the attribute key `"vars.a\nb"` has the form
`"<key>.<subkey>"` with subkey `"a\nb"`, but the scan stores its value under
`"a"` — `.` in the Python regex stops at the newline — so the claimed entry
for `"a\nb"` is absent. -/
theorem claim_C4_counterexample :
    dlookup rC4.attributes ("vars" ++ "." ++ "a\nb") = some (AttrVal.s "v")
    ∧ dlookup (TerraformResource.read_dict_attr rC4 "vars") "a\nb" = none
    ∧ dlookup (TerraformResource.read_dict_attr rC4 "vars") "a" = some (AttrVal.s "v") := by
  refine ⟨by decide, ?_, ?_⟩ <;> decide

/-- C4 as amended: over legacy attribute maps whose keys contain no newline
(and with the unique keys of a real attribute dict), `read_dict_attr` has no
entry for the `"%"` marker, and its mapping contains exactly the pairs
`subkey → value` for the attribute keys `"<key>.<subkey>"`, `subkey ≠ "%"`,
and nothing else.  (Keys with a newline are instead stored under the subkey
truncated at the first newline — see the counterexample.) -/
theorem claim_C4_amended (r : TerraformResource) (key : String)
    (hflat : r.flat_attrs = true)
    (hnl : ∀ p ∈ r.attributes, ∀ c ∈ p.1.data, c ≠ '\n')
    (hnodup : (r.attributes.map Prod.fst).Nodup) :
    dlookup (r.read_dict_attr key) "%" = none
    ∧ ∀ sub v, dlookup (r.read_dict_attr key) sub = some v ↔
        (sub ≠ "%" ∧ dlookup r.attributes (key ++ "." ++ sub) = some v) := by
  constructor
  · rw [read_dict_attr_flat_lookup r key hflat]
    apply dlookup_eq_none_of_not_mem_keys
    rw [List.map_reverse, List.mem_reverse]
    intro hc
    obtain ⟨v, hv⟩ := (mem_keys_iff _ _).mp hc
    obtain ⟨p, -, -, hs, -⟩ := (mem_subEntries key r.attributes "%" v).mp hv
    exact hs rfl
  · intro sub v
    rw [read_dict_attr_flat_lookup r key hflat]
    constructor
    · intro h
      have hmem := List.mem_reverse.mp (dlookup_mem h)
      obtain ⟨p, hp, hrs, hs, hv⟩ := (mem_subEntries key r.attributes sub v).mp hmem
      have hkey : p.1 = key ++ "." ++ sub :=
        regexSubkey_eq_append key p.1 sub hrs (hnl p hp)
      refine ⟨hs, ?_⟩
      apply dlookup_of_mem_nodup _ _ _ hnodup
      rw [← hkey, ← hv]
      exact hp
    · rintro ⟨hs, hlook⟩
      have hmem := dlookup_mem hlook
      have hsubnl : ∀ c ∈ sub.data, c ≠ '\n' := by
        intro c hc
        apply hnl _ hmem
        show c ∈ (key ++ "." ++ sub).data
        rw [String.data_append]
        exact List.mem_append_right _ hc
      have hin : (sub, v) ∈ subEntries key r.attributes :=
        (mem_subEntries key r.attributes sub v).mpr
          ⟨(key ++ "." ++ sub, v), hmem, regexSubkey_of_append key sub hsubnl, hs, rfl⟩
      apply dlookup_of_uniq (List.mem_reverse.mpr hin)
      intro v' hv'
      obtain ⟨p', hp', hrs', -, hv'2⟩ :=
        (mem_subEntries key r.attributes sub v').mp (List.mem_reverse.mp hv')
      have hkey' : p'.1 = key ++ "." ++ sub :=
        regexSubkey_eq_append key p'.1 sub hrs' (hnl p' hp')
      apply nodup_value_eq r.attributes (key ++ "." ++ sub) v' v hnodup
      · rw [← hkey', ← hv'2]
        exact hp'
      · exact hmem

/-- A well-formed legacy map attribute (concrete input for the C4 witness). -/
def rC4w : TerraformResource :=
  ⟨true, none, none,
    [("vars.%", AttrVal.s "2"), ("vars.a", AttrVal.s "1"), ("vars.b", AttrVal.s "2")]⟩

/-- C4 witness: the marker is excluded and a dotted subkey is read back. -/
theorem claim_C4_witness :
    dlookup (TerraformResource.read_dict_attr rC4w "vars") "%" = none
    ∧ dlookup (TerraformResource.read_dict_attr rC4w "vars") "a" = some (AttrVal.s "1") := by
  have h := claim_C4_amended rC4w "vars" rfl (by decide) (by decide)
  exact ⟨h.1, (h.2 "a" (AttrVal.s "1")).mpr ⟨by decide, by decide⟩⟩

theorem dlookup_dictUpdate_single {V : Type} (d : List (String × V)) (k : String) (v : V) :
    dlookup (dictUpdate d [(k, v)]) k = some v := by
  rw [dlookup_dictUpdate, List.reverse_singleton]
  simp

/-- C5: two variable declarations for the same key on the same host (resp.
group), applied in order, leave the later value in the serialized output:
the `_meta.hostvars` entry of the host (resp. the `vars` section of the group) maps the
key to the second value.  The hypotheses only rule out a group literally
named `"_meta"`, which would overwrite the metadata section. -/
theorem claim_C5 (inv : AnsibleInventory) (hn gn k : String) (v1 v2 : AttrVal)
    (hmg : "_meta" ∉ inv.groups.map Prod.fst)
    (hmh : ∀ h, dlookup inv.hosts hn = some h → "_meta" ∉ h.groups) :
    (∃ hv vm,
      dlookup ((inv.update_hosts hn [] [(k, v1)]).update_hosts hn [] [(k, v2)]).to_dict "_meta"
        = some (Entry.meta hv)
      ∧ dlookup hv hn = some vm ∧ dlookup vm k = some v2)
    ∧ (∃ chl hsl vl,
      dlookup ((inv.update_groups gn [] [] [(k, v1)]).update_groups gn [] [] [(k, v2)]).to_dict gn
        = some (Entry.group chl hsl vl)
      ∧ dlookup vl k = some v2) := by
  constructor
  · -- host half
    have hg1 : "_meta" ∉ (inv.upsertedHost hn [] [(k, v1)]).groups := by
      rw [upsertedHost_groups]
      intro hc
      rcases Finset.mem_union.mp hc with hc | hc
      · cases hh : dlookup inv.hosts hn with
        | some h =>
          rw [hh] at hc
          exact hmh h hh hc
        | none =>
          rw [hh] at hc
          simp at hc
      · simp at hc
    have hkeys1 : "_meta" ∉ (inv.update_hosts hn [] [(k, v1)]).groups.map Prod.fst := by
      rw [uh_mem_keys]
      rintro (hc | hc)
      · exact hmg hc
      · exact hg1 hc
    have hhost1 := uh_hosts_lookup_self inv hn [] [(k, v1)]
    have hhost2eq : (inv.update_hosts hn [] [(k, v1)]).upsertedHost hn [] [(k, v2)]
        = (inv.upsertedHost hn [] [(k, v1)]).update [] [(k, v2)] := by
      unfold AnsibleInventory.upsertedHost
      rw [hhost1]
      rfl
    have hg2 : "_meta" ∉ ((inv.update_hosts hn [] [(k, v1)]).upsertedHost hn [] [(k, v2)]).groups := by
      rw [hhost2eq]
      show "_meta" ∉ (inv.upsertedHost hn [] [(k, v1)]).groups ∪ ([] : List String).toFinset
      intro hc
      rcases Finset.mem_union.mp hc with hc | hc
      · exact hg1 hc
      · simp at hc
    have hkeys2 :
        "_meta" ∉ ((inv.update_hosts hn [] [(k, v1)]).update_hosts hn [] [(k, v2)]).groups.map
          Prod.fst := by
      rw [uh_mem_keys]
      rintro (hc | hc)
      · exact hkeys1 hc
      · exact hg2 hc
    refine ⟨((inv.update_hosts hn [] [(k, v1)]).update_hosts hn [] [(k, v2)]).hosts.map
        (fun p => (p.1, p.2.get_vars)),
      ((inv.update_hosts hn [] [(k, v1)]).upsertedHost hn [] [(k, v2)]).get_vars,
      ?_, ?_, ?_⟩
    · exact to_dict_meta_of_not_group _ hkeys2
    · rw [dlookup_map_value, uh_hosts_lookup_self]
      rfl
    · rw [hhost2eq]
      show dlookup (dictUpdate (inv.upsertedHost hn [] [(k, v1)]).host_vars [(k, v2)]) k = some v2
      exact dlookup_dictUpdate_single _ k v2
  · -- group half
    have hgrp1 := ug_groups_lookup_self inv gn [] [] [(k, v1)]
    have hupeq : upsertedGroup (inv.update_groups gn [] [] [(k, v1)]) gn [] [] [(k, v2)]
        = (upsertedGroup inv gn [] [] [(k, v1)]).update [] [] [(k, v2)] := by
      unfold upsertedGroup
      rw [hgrp1]
      rfl
    refine ⟨_, _, _, to_dict_group_after_ug _ gn [] [] [(k, v2)], ?_⟩
    rw [hupeq]
    show dlookup (dictUpdate (upsertedGroup inv gn [] [] [(k, v1)]).group_vars [(k, v2)]) k
      = some v2
    exact dlookup_dictUpdate_single _ k v2

/-- C5 witness: from the empty model, the later of two values for the same
host variable and the same group variable wins in the serialized output. -/
theorem claim_C5_witness :
    (∃ hv vm,
      dlookup ((AnsibleInventory.empty.update_hosts "web1" [] [("port", AttrVal.s "1")]).update_hosts
        "web1" [] [("port", AttrVal.s "2")]).to_dict "_meta" = some (Entry.meta hv)
      ∧ dlookup hv "web1" = some vm ∧ dlookup vm "port" = some (AttrVal.s "2"))
    ∧ (∃ chl hsl vl,
      dlookup ((AnsibleInventory.empty.update_groups "g" [] [] [("port", AttrVal.s "1")]).update_groups
        "g" [] [] [("port", AttrVal.s "2")]).to_dict "g" = some (Entry.group chl hsl vl)
      ∧ dlookup vl "port" = some (AttrVal.s "2")) :=
  claim_C5 AnsibleInventory.empty "web1" "g" "port" (AttrVal.s "1") (AttrVal.s "2")
    (by decide) (by intro h hc; simp [AnsibleInventory.empty] at hc)

/-- C1: a host upserted at least once — by a host declaration or a
host-variable declaration, anywhere in the operation sequence — appears in
the hosts list of the serialized `"all"` group. -/
theorem claim_C1 (ops : List Op) (hn : String)
    (hmem : (∃ g w, Op.host hn g w ∈ ops) ∨ (∃ k v, Op.hostvar hn k v ∈ ops)) :
    ∃ chl hsl vl,
      dlookup (runOps ops).to_dict "all" = some (Entry.group chl hsl vl) ∧ hn ∈ hsl := by
  have hop : ∃ op, op ∈ ops ∧ ∃ g w, ∀ inv : AnsibleInventory,
      applyOp inv op = inv.update_hosts hn g w := by
    rcases hmem with ⟨g, w, hin⟩ | ⟨k, v, hin⟩
    · exact ⟨Op.host hn g w, hin, g, w, fun inv => rfl⟩
    · exact ⟨Op.hostvar hn k v, hin, [], [(k, v)], fun inv => rfl⟩
  obtain ⟨op, hin, g, w, happ⟩ := hop
  obtain ⟨l1, l2, rfl⟩ := List.append_of_mem hin
  have hrun : runOps (l1 ++ op :: l2)
      = l2.foldl applyOp (applyOp (l1.foldl applyOp AnsibleInventory.empty) op) := by
    rw [runOps, List.foldl_append, List.foldl_cons]
  have hIall : Iall (l1.foldl applyOp AnsibleInventory.empty) :=
    Iall_foldOps l1 _ Iall_empty
  have hallmem : "all" ∈ ((l1.foldl applyOp AnsibleInventory.empty).upsertedHost hn g w).groups :=
    mem_all_upsertedHost _ hn g w hIall
  obtain ⟨g0, hg0, hhn0⟩ := uh_registers (l1.foldl applyOp AnsibleInventory.empty) hn g w
    "all" hallmem
  have hg0' : dlookup (applyOp (l1.foldl applyOp AnsibleInventory.empty) op).groups "all"
      = some g0 := by
    rw [happ]
    exact hg0
  obtain ⟨g1, hg1, hs1, -⟩ := foldOps_groups_mono l2 _ "all" g0 hg0'
  have hnodup : NodupKeys (runOps (l1 ++ op :: l2)) := NodupKeys_runOps _
  have hfinal : dlookup (runOps (l1 ++ op :: l2)).to_dict "all" = some (groupEntry g1) := by
    apply to_dict_group_of_nodup _ _ _ hnodup.1
    rw [hrun]
    exact hg1
  refine ⟨g1.tidyChildren, g1.tidyHosts, g1.group_vars, hfinal, ?_⟩
  rw [AnsibleGroup.tidyHosts, mem_finSort]
  exact hs1 hhn0

/-- C1 witness: one plain host declaration from the empty model. -/
theorem claim_C1_witness :
    ∃ chl hsl vl,
      dlookup (runOps [Op.host "web1" [] []]).to_dict "all" = some (Entry.group chl hsl vl)
      ∧ "web1" ∈ hsl :=
  claim_C1 [Op.host "web1" [] []] "web1" (Or.inl ⟨[], [], List.mem_singleton.mpr rfl⟩)

/-- The implicit host/group invariant of the model: every group name in a
membership set of a stored host names an existing group holding that hostname. -/
def InvariantHG (inv : AnsibleInventory) : Prop :=
  ∀ hn h, dlookup inv.hosts hn = some h →
    ∀ gn, gn ∈ h.groups → ∃ g, dlookup inv.groups gn = some g ∧ hn ∈ g.hosts

theorem invHG_empty : InvariantHG AnsibleInventory.empty := by
  intro hn h hh
  simp [AnsibleInventory.empty] at hh

theorem invHG_ug (inv : AnsibleInventory) (gn0 : String) (ch hs : List String)
    (w : List (String × AttrVal)) (hI : InvariantHG inv) :
    InvariantHG (inv.update_groups gn0 ch hs w) := by
  intro hn h hh gn hgn
  rw [ug_hosts] at hh
  obtain ⟨g, hg, hmem⟩ := hI hn h hh gn hgn
  obtain ⟨g', hg', hsub, -⟩ := ug_mono inv gn0 ch hs w gn g hg
  exact ⟨g', hg', hsub hmem⟩

theorem invHG_uh (inv : AnsibleInventory) (hn0 : String) (gs : List String)
    (w : List (String × AttrVal)) (hI : InvariantHG inv) :
    InvariantHG (inv.update_hosts hn0 gs w) := by
  intro hn h hh gn hgn
  rw [uh_hosts, dlookup_dictSet] at hh
  by_cases hk : hn = hn0
  · rw [if_pos hk] at hh
    injection hh with hh
    subst hh
    subst hk
    exact uh_registers inv hn gs w gn hgn
  · rw [if_neg hk] at hh
    obtain ⟨g, hg, hmem⟩ := hI hn h hh gn hgn
    obtain ⟨g', hg', hsub, -⟩ := uh_groups_mono inv hn0 gs w gn g hg
    exact ⟨g', hg', hsub hmem⟩

theorem invHG_applyOp (inv : AnsibleInventory) (op : Op) (hI : InvariantHG inv) :
    InvariantHG (applyOp inv op) := by
  cases op with
  | host hn g w => exact invHG_uh inv hn g w hI
  | hostvar hn k v => exact invHG_uh inv hn [] [(k, v)] hI
  | group gn ch w => exact invHG_ug inv gn ch [] w hI
  | groupvar gn k v => exact invHG_ug inv gn [] [] [(k, v)] hI

theorem invHG_foldOps (ops : List Op) (inv : AnsibleInventory) (hI : InvariantHG inv) :
    InvariantHG (ops.foldl applyOp inv) := by
  induction ops generalizing inv with
  | nil => exact hI
  | cons op t ih => exact ih _ (invHG_applyOp inv op hI)

/-- C10: in any state reachable from the empty model by upserts, every group
name in the membership set of a stored host names a group that exists in the group
dict and lists that hostname among its members. -/
theorem claim_C10 (ops : List Op) : InvariantHG (runOps ops) :=
  invHG_foldOps ops AnsibleInventory.empty invHG_empty

/-- C10 witness: the invariant instantiated after one host declaration. -/
theorem claim_C10_witness :
    ∃ g, dlookup (runOps [Op.host "w" [] []]).groups "all" = some g ∧ "w" ∈ g.hosts :=
  claim_C10 [Op.host "w" [] []] "w" ⟨"w", {"all"}, []⟩ (by decide) "all" (by decide)

/-- C6 witness: the idempotence instantiated at a concrete declaration. -/
theorem claim_C6_witness :
    ∃ h1 h2,
      dlookup (AnsibleInventory.empty.update_hosts "w" ["g"] [("a", AttrVal.s "1")]).hosts "w"
        = some h1 ∧
      dlookup ((AnsibleInventory.empty.update_hosts "w" ["g"] [("a", AttrVal.s "1")]).update_hosts
        "w" ["g"] [("a", AttrVal.s "1")]).hosts "w" = some h2 ∧
      h2.hostname = h1.hostname ∧ h2.groups = h1.groups ∧
      ∀ k, dlookup h2.host_vars k = dlookup h1.host_vars k :=
  claim_C6 AnsibleInventory.empty "w" ["g"] [("a", AttrVal.s "1")]
